import Mathlib

/-!
# Verification of the parasync concurrency/caching library

This file is a shallow embedding of the core of the `parasync` TypeScript
library together with proofs about it:

* `ControlPromise` (src/ControlPromise.ts): a manually resolvable future with
  first-writer-wins settle semantics.
* `MemCache` (src/MemCache.ts): a TTL cache mapping keys to promises of
  values, with an amortized expiry sweep.
* `MemAggregateCache` (src/MemAggregateCache.ts): a batch cache built from two
  `MemCache` instances plus reserved `ControlPromise` slots.
* `runParallel` / `handleParallel` (src/parallel/*.ts): the bounded-concurrency
  executor, modelled as a small-step transition system whose suspension points
  mirror the `await` points of the source.

Modelling conventions:

* Promises are entries of an explicit store (`PromStore`); a promise is
  identified by its index and carries a `Settlement` (pending / fulfilled /
  rejected) plus an `isControl` flag recording whether the underlying object is
  a `ControlPromise` (i.e. has `resolve`/`reject` methods).
* `Date.now()` is an explicit `now : Int` argument; a synchronous block of the
  source (no `await` inside) is modelled as executing at a single `now`.
* Effectful loaders are state-passing functions `K → W → α × W` for an
  instance-specific effect type `W`.
* JavaScript `Map` objects are association lists updated in place
  (`aset`/`alookup`), which matches `Map.get`/`Map.set` value semantics.
-/

/-! ## Association lists (model of JS `Map`) -/

def alookup {K β : Type} [DecidableEq K] : List (K × β) → K → Option β
  | [], _ => none
  | (k', b) :: rest, k => if k' = k then some b else alookup rest k

def aset {K β : Type} [DecidableEq K] : List (K × β) → K → β → List (K × β)
  | [], k, b => [(k, b)]
  | (k', b') :: rest, k, b =>
      if k' = k then (k, b) :: rest else (k', b') :: aset rest k b

/-! ## Settlements and the promise store -/

/-- The settlement state of a JS promise. -/
inductive Settlement (V E : Type) where
  | pending : Settlement V E
  | fulfilled (v : V) : Settlement V E
  | rejected (e : E) : Settlement V E
deriving DecidableEq

def Settlement.isPending {V E : Type} : Settlement V E → Bool
  | .pending => true
  | _ => false

/-- A promise in the store: its settlement plus whether the underlying object
is a `ControlPromise` (exposes `resolve`/`reject`). -/
structure Prom (V E : Type) where
  settlement : Settlement V E
  isControl : Bool
deriving DecidableEq

abbrev PromStore (V E : Type) : Type := List (Prom V E)

/-- `ControlPromise.resolve` on the promise with id `pid`: a no-op unless the
promise is still pending (first writer wins). -/
def storeResolve {V E : Type} : PromStore V E → Nat → V → PromStore V E
  | [], _, _ => []
  | p :: ps, 0, v =>
      (if p.settlement.isPending then { p with settlement := .fulfilled v } else p) :: ps
  | p :: ps, n + 1, v => p :: storeResolve ps n v

/-- `ControlPromise.reject` on the promise with id `pid`: a no-op unless the
promise is still pending (first writer wins). -/
def storeReject {V E : Type} : PromStore V E → Nat → E → PromStore V E
  | [], _, _ => []
  | p :: ps, 0, e =>
      (if p.settlement.isPending then { p with settlement := .rejected e } else p) :: ps
  | p :: ps, n + 1, e => p :: storeReject ps n e

/-! ## ControlPromise (src/ControlPromise.ts), standalone state machine

The class keeps two private flags `_resolved`/`_rejected`, guards both
`resolve` and `reject` by `if (!this.pending) return;`, and forwards to the
native promise's resolver/rejector.  `outcome` below models the settlement of
the underlying native promise (what every awaiting holder observes). -/

structure ControlPromise (V E : Type) where
  _resolved : Bool
  _rejected : Bool
  outcome : Option (V ⊕ E)
deriving DecidableEq

def ControlPromise.new {V E : Type} : ControlPromise V E := ⟨false, false, none⟩

/-- `get pending()` -/
def ControlPromise.pending {V E : Type} (p : ControlPromise V E) : Bool :=
  !p._resolved && !p._rejected

/-- `get fulfilled()` -/
def ControlPromise.fulfilled {V E : Type} (p : ControlPromise V E) : Bool :=
  p._resolved

/-- `get rejected()` -/
def ControlPromise.rejected {V E : Type} (p : ControlPromise V E) : Bool :=
  p._rejected

/-- Settling the underlying native promise: the first settlement sticks. -/
def nativeSettle {V E : Type} (o : Option (V ⊕ E)) (x : V ⊕ E) : Option (V ⊕ E) :=
  match o with
  | some y => some y
  | none => some x

def ControlPromise.resolve {V E : Type} (p : ControlPromise V E) (v : V) :
    ControlPromise V E :=
  if !p.pending then p
  else { p with _resolved := true, outcome := nativeSettle p.outcome (Sum.inl v) }

def ControlPromise.reject {V E : Type} (p : ControlPromise V E) (e : E) :
    ControlPromise V E :=
  if !p.pending then p
  else { p with _rejected := true, outcome := nativeSettle p.outcome (Sum.inr e) }

/-- One external call to a ControlPromise: `resolve(v)` or `reject(e)`. -/
inductive CPAction (V E : Type) where
  | resolveA (v : V)
  | rejectA (e : E)

def CPAction.apply {V E : Type} (a : CPAction V E) (p : ControlPromise V E) :
    ControlPromise V E :=
  match a with
  | .resolveA v => p.resolve v
  | .rejectA e => p.reject e

/-- A sequence of resolve/reject calls, applied in order. -/
def applyAllCP {V E : Type} (acts : List (CPAction V E)) (p : ControlPromise V E) :
    ControlPromise V E :=
  acts.foldl (fun q a => a.apply q) p

/-! ## MemCache (src/MemCache.ts) -/

/-- `MemCacheEntry<V>`: a cached promise handle (`value`, a promise id or any
handle type `α`) plus the absolute expiry instant, fixed at creation as
`Date.now() + ttl`. -/
structure MemCacheEntry (α : Type) where
  expiresAt : Int
  value : α
deriving DecidableEq

/-- `MemCacheEntry.isValid`: validity is decided solely by `expiresAt > now`;
the settlement state of the stored promise plays no role. -/
def MemCacheEntry.isValid {α : Type} (e : MemCacheEntry α) (now : Int) : Bool :=
  e.expiresAt > now

/-- `MemCache<K, V>`: the key-entry map, the fixed ttl, the optional default
loader fixed at construction, and the amortized-sweep watermark
`expiredDeleteAt`. `W` is the effect-state type threaded through loaders. -/
structure MemCache (K α W : Type) where
  ttl : Int
  load : Option (K → W → α × W)
  kv : List (K × MemCacheEntry α)
  expiredDeleteAt : Int

/-- `MemCache.deleteExpired`: remove every entry that is no longer valid. -/
def MemCache.deleteExpired {K α W : Type} (c : MemCache K α W) (now : Int) :
    MemCache K α W :=
  { c with kv := c.kv.filter (fun p => p.2.isValid now) }

/-- `MemCache.deleteExpiredIfNeed`: sweep only when the watermark has passed,
then advance the watermark by one ttl. -/
def MemCache.deleteExpiredIfNeed {K α W : Type} (c : MemCache K α W) (now : Int) :
    MemCache K α W :=
  if c.expiredDeleteAt > now then c
  else { c.deleteExpired now with expiredDeleteAt := now + c.ttl }

/-- Whether a currently valid entry exists for `key` (the condition
`stored?.isValid()` of the source `get`). -/
def MemCache.hasValidEntry {K α W : Type} [DecidableEq K]
    (c : MemCache K α W) (now : Int) (key : K) : Bool :=
  match alookup c.kv key with
  | some e => e.isValid now
  | none => false

/-- The part of `MemCache.get` after the initial `deleteExpiredIfNeed()` call,
operating on the already swept cache `c1`: the `!loader` check (which happens
before the entry lookup), then reuse of a valid entry, or invocation of the
loader and storage of a new entry wrapping the loader's promise. -/
def MemCache.getBody {K α W : Type} [DecidableEq K] (c1 : MemCache K α W) (now : Int)
    (key : K) (loaderArg : Option (K → W → α × W)) (w : W) :
    Except String (MemCache K α W × α × W) :=
  match loaderArg.orElse (fun _ => c1.load) with
  | none => .error "Loader is required but not provided"
  | some loader =>
    match alookup c1.kv key with
    | some e =>
      if e.isValid now then .ok (c1, e.value, w)
      else
        .ok ({ c1 with kv := aset c1.kv key ⟨now + c1.ttl, (loader key w).1⟩ },
             (loader key w).1, (loader key w).2)
    | none =>
      .ok ({ c1 with kv := aset c1.kv key ⟨now + c1.ttl, (loader key w).1⟩ },
           (loader key w).1, (loader key w).2)

/-- `MemCache.get(key, loader = this.load)`: sweep if needed, then run the rest
of the body on the swept cache.  `loaderArg = none` models a call without the
optional second argument, which makes the source fall back to the default
loader `this.load`. -/
def MemCache.get {K α W : Type} [DecidableEq K] (c : MemCache K α W) (now : Int)
    (key : K) (loaderArg : Option (K → W → α × W)) (w : W) :
    Except String (MemCache K α W × α × W) :=
  MemCache.getBody (c.deleteExpiredIfNeed now) now key loaderArg w

/-! ## MemAggregateCache (src/MemAggregateCache.ts) -/

/-- Errors observable from `MemAggregateCache` operations:
`upstream e` is a failure of the user-supplied batch loader (propagated
verbatim), `wrongLoadedKey k` models `new Error('Wrong loaded key "<k>"')`,
and `notAFunction` models the TypeError raised by calling `.resolve` on a
stored plain promise that is not a `ControlPromise`. -/
inductive AggError (K E : Type) where
  | upstream (e : E)
  | wrongLoadedKey (k : K)
  | notAFunction
deriving DecidableEq

/-- The promise world of one `MemAggregateCache`: the store of item-value
promises (`storeV`), the store of key-list promises used by the complex-key
cache (`storeKs`), and a log recording each invocation of the batch loader
with its argument list (used to state "the loader is invoked exactly once
with these keys"). -/
structure AggWorld (K V E : Type) where
  storeV : PromStore V (AggError K E)
  storeKs : PromStore (List K) (AggError K E)
  batchLog : List (List K)
deriving DecidableEq

/-- Effect state threaded through the item cache's loaders: the promise world
plus the `keysToLoad` array that `getMany`'s reservation closure pushes to. -/
abbrev KvEff (K V E : Type) : Type := AggWorld K V E × List K

/-- The closure `() => { keysToLoad.push(key); return new ControlPromise(); }`
passed to `kv.get` by `getMany`: allocates a fresh pending ControlPromise and
records the key as needing a load. -/
def reserveLoader {K V E : Type} : K → KvEff K V E → Nat × KvEff K V E :=
  fun key we =>
    (we.1.storeV.length,
     ({ we.1 with storeV := we.1.storeV ++ [⟨.pending, true⟩] }, we.2 ++ [key]))

/-- Settlement of the promise `this.load([key]).then(([value]) => value)` used
by the item cache's default loader, given the batch loader's outcome on
`[key]`.  A loader that fulfills with an empty list makes the destructured
`value` the JS `undefined`; that case is never exercised by any property in
this file and is modelled as a never-settling promise. -/
def singletonSettle {K V E : Type} (load : List K → Except E (List V)) (key : K) :
    Settlement V (AggError K E) :=
  match load [key] with
  | .error e => .rejected (.upstream e)
  | .ok (v :: _) => .fulfilled v
  | .ok [] => .pending

/-- The item cache's default loader
`key => this.load([key]).then(([value]) => value)`: performs one batch load
for the singleton list (recorded in `batchLog`) and stores a plain
(non-control) promise of the single value. -/
def singletonLoader {K V E : Type} (load : List K → Except E (List V)) :
    K → KvEff K V E → Nat × KvEff K V E :=
  fun key we =>
    (we.1.storeV.length,
     ({ we.1 with
          storeV := we.1.storeV ++ [⟨singletonSettle load key, false⟩],
          batchLog := we.1.batchLog ++ [[key]] }, we.2))

/-- The closure `() => loader()` passed to `cmkks.get` by
`getManyByComplexKey`: allocates a plain promise of the key list whose
settlement is the keys loader's outcome. -/
def keysLoader {K CMK V E : Type} (keysResult : Except E (List K)) :
    CMK → AggWorld K V E → Nat × AggWorld K V E :=
  fun _ w =>
    (w.storeKs.length,
     { w with
         storeKs := w.storeKs ++
           [⟨match keysResult with
             | .ok ks => .fulfilled ks
             | .error e => .rejected (.upstream e), false⟩] })

/-- `MemAggregateCache<K, CMK, V>`: the ttl, the key extractor, the batch
loader (modelled as a function from the requested key list to its outcome),
and the two underlying caches `kv` (item-key to item promise) and `cmkks`
(complex key to key-list promise). -/
structure MemAggregateCache (K CMK V E : Type) where
  ttl : Int
  getKey : V → K
  load : List K → Except E (List V)
  kv : MemCache K Nat (KvEff K V E)
  cmkks : MemCache CMK Nat (AggWorld K V E)

/-- The constructor: `kv` gets the singleton default loader, `cmkks` has no
default loader; both start empty with the sweep watermark at construction
time. -/
def MemAggregateCache.create {K CMK V E : Type} (ttl : Int) (getKey : V → K)
    (load : List K → Except E (List V)) (now : Int) : MemAggregateCache K CMK V E :=
  { ttl := ttl, getKey := getKey, load := load,
    kv := { ttl := ttl, load := some (singletonLoader load), kv := [],
            expiredDeleteAt := now },
    cmkks := { ttl := ttl, load := none, kv := [], expiredDeleteAt := now } }

/-- `MemAggregateCache.get(key)`: delegate to the item cache with its default
(singleton batch) loader. -/
def MemAggregateCache.get {K CMK V E : Type} [DecidableEq K]
    (agg : MemAggregateCache K CMK V E) (now : Int) (key : K) (w : AggWorld K V E) :
    MemAggregateCache K CMK V E × AggWorld K V E × Except String Nat :=
  match agg.kv.get now key none (w, []) with
  | .ok (kv', pid, we) => ({ agg with kv := kv' }, we.1, .ok pid)
  | .error s => (agg, w, .error s)

/-- The synchronous reservation loop of `getMany` threads the item cache, the
world, `keysToLoad` and the local `map` through one `kv.get` per input key. -/
abbrev Phase1Acc (K V E : Type) : Type :=
  MemCache K Nat (KvEff K V E) × AggWorld K V E × List K × List (K × Nat)

def getManyStep {K V E : Type} [DecidableEq K] (now : Int)
    (acc : Phase1Acc K V E) (key : K) : Phase1Acc K V E :=
  let (kv, w, ktl, m) := acc
  match kv.get now key (some reserveLoader) (w, ktl) with
  | .ok (kv', pid, we) => (kv', we.1, we.2, aset m key pid)
  | .error _ => (kv, w, ktl, m)

def getManyPhase1 {K V E : Type} [DecidableEq K] (kv0 : MemCache K Nat (KvEff K V E))
    (now : Int) (keys : List K) (w : AggWorld K V E) : Phase1Acc K V E :=
  keys.foldl (getManyStep now) (kv0, w, [], [])

/-- The `for (const value of loadedValues)` loop of `getMany`: derive each
value's key, look it up in `map`, throw `wrongLoadedKey` when absent, call
`.resolve` on the stored promise (a TypeError, modelled as `notAFunction`,
when the stored promise is not a ControlPromise).  Returns the store after
the resolutions performed so far plus the error that aborted the loop, if
any. -/
def resolveLoop {K V E : Type} [DecidableEq K] (getKey : V → K)
    (m : List (K × Nat)) :
    PromStore V (AggError K E) → List V →
      PromStore V (AggError K E) × Option (AggError K E)
  | store, [] => (store, none)
  | store, v :: vs =>
    match alookup m (getKey v) with
    | none => (store, some (.wrongLoadedKey (getKey v)))
    | some pid =>
      match store.get? pid with
      | some p =>
        if p.isControl then resolveLoop getKey m (storeResolve store pid v) vs
        else (store, some .notAFunction)
      | none => (store, some .notAFunction)

/-- The `catch` block of `getMany`: reject the reserved future of every key in
`keysToLoad` with the caught error (a no-op on futures that already
settled). -/
def rejectAll {K V E : Type} [DecidableEq K] (m : List (K × Nat))
    (err : AggError K E) :
    PromStore V (AggError K E) → List K → PromStore V (AggError K E)
  | store, [] => store
  | store, k :: ks =>
      rejectAll m err
        (match alookup m k with
         | some pid => storeReject store pid err
         | none => store) ks

/-- `MemAggregateCache.getMany(keys)`.  Phase 1 reserves/reuses one promise per
key; if any keys need loading, the batch loader is invoked once with
`keysToLoad` (recorded in `batchLog`), its values are resolved into the
reserved futures, and any failure rejects all reserved futures and re-raises.
The result is the promise id per input key, in input order (the
`Promise.all(keys.map(key => map.get(key)!))`). -/
def MemAggregateCache.getMany {K CMK V E : Type} [DecidableEq K]
    (agg : MemAggregateCache K CMK V E) (now : Int) (keys : List K)
    (w : AggWorld K V E) :
    MemAggregateCache K CMK V E × AggWorld K V E × Except (AggError K E) (List Nat) :=
  let acc := getManyPhase1 agg.kv now keys w
  let kv1 := acc.1
  let w1 := acc.2.1
  let ktl := acc.2.2.1
  let m := acc.2.2.2
  let agg1 := { agg with kv := kv1 }
  let pids := keys.map (fun k => (alookup m k).getD 0)
  if ktl.isEmpty then (agg1, w1, .ok pids)
  else
    let w2 := { w1 with batchLog := w1.batchLog ++ [ktl] }
    match agg.load ktl with
    | .error e =>
      (agg1, { w2 with storeV := rejectAll m (.upstream e) w2.storeV ktl },
       .error (.upstream e))
    | .ok vs =>
      match resolveLoop agg.getKey m w2.storeV vs with
      | (store', none) => (agg1, { w2 with storeV := store' }, .ok pids)
      | (store', some err) =>
        (agg1, { w2 with storeV := rejectAll m err store' ktl }, .error err)

/-- `MemAggregateCache.getManyByComplexKey(complexKey, loader)`: resolve the
key list through the complex-key cache (single-flight on the complex key),
await it, then delegate to `getMany`.  `keysResult` is the outcome of the
supplied keys loader; the result is `none` when the awaited key-list promise
never settles. -/
def MemAggregateCache.getManyByComplexKey {K CMK V E : Type} [DecidableEq K]
    [DecidableEq CMK] (agg : MemAggregateCache K CMK V E) (now : Int) (cmk : CMK)
    (keysResult : Except E (List K)) (w : AggWorld K V E) :
    MemAggregateCache K CMK V E × AggWorld K V E ×
      Option (Except (AggError K E) (List Nat)) :=
  match agg.cmkks.get now cmk (some (keysLoader keysResult)) w with
  | .error _ => (agg, w, none)
  | .ok (cmkks', pid, w1) =>
    let agg1 := { agg with cmkks := cmkks' }
    match w1.storeKs.get? pid with
    | some ⟨.fulfilled ks, _⟩ =>
      let r := agg1.getMany now ks w1
      (r.1, r.2.1, some r.2.2)
    | some ⟨.rejected err, _⟩ => (agg1, w1, some (.error err))
    | _ => (agg1, w1, none)

/-- The deduplicated list of keys that lack a valid entry in `c`, in first
occurrence order: exactly the `keysToLoad` array `getMany` accumulates when
the reservation loop runs over a cache whose current state is `c` (with the
sweep already applied and a positive ttl). -/
def missingKeys {K α W : Type} [DecidableEq K] (c : MemCache K α W) (now : Int)
    (keys : List K) : List K :=
  keys.foldl
    (fun acc k => if c.hasValidEntry now k = true ∨ k ∈ acc then acc else acc ++ [k]) []

/-- Index of the first occurrence of `k`. -/
def idxOfK {K : Type} [DecidableEq K] : List K → K → Nat
  | [], _ => 0
  | x :: xs, k => if x = k then 0 else idxOfK xs k + 1

/-- The promise id that `getMany`'s reservation loop associates with a
processed key: the cached promise for keys with a valid entry in the starting
cache, otherwise the reserved ControlPromise, numbered by the key's position
in `keysToLoad` after the end of the starting world's promise store. -/
def pidSpec {K V E : Type} [DecidableEq K] (kv₁ : MemCache K Nat (KvEff K V E))
    (w₀ : AggWorld K V E) (now : Int) (ktl : List K) (k : K) : Nat :=
  match alookup kv₁.kv k with
  | some e => if e.isValid now then e.value else w₀.storeV.length + idxOfK ktl k
  | none => w₀.storeV.length + idxOfK ktl k

/-- The invariant of `getMany`'s reservation loop, relating the accumulator
after processing the prefix `done` of the input keys to the swept starting
item cache `kv₁` and starting world `w₀`: `keysToLoad` is exactly the
deduplicated missing part of `done`; every key recorded there had no valid
entry; the world has grown by exactly one pending ControlPromise per missing
key (and nothing else changed); the cache maps each missing key to a fresh
entry `⟨now + ttl, pid⟩` and is untouched elsewhere; and the local `map`
holds, for each processed key, the promise id `getMany` will await for it
(the cached promise for hits, the reserved ControlPromise for misses). -/
def Phase1Inv {K V E : Type} [DecidableEq K] (kv₁ : MemCache K Nat (KvEff K V E))
    (w₀ : AggWorld K V E) (now : Int) (done : List K) (acc : Phase1Acc K V E) : Prop :=
  acc.1.ttl = kv₁.ttl
  ∧ acc.1.load = kv₁.load
  ∧ acc.1.expiredDeleteAt = kv₁.expiredDeleteAt
  ∧ acc.2.2.1 = missingKeys kv₁ now done
  ∧ (∀ k ∈ acc.2.2.1, kv₁.hasValidEntry now k = false)
  ∧ acc.2.1 = { w₀ with
        storeV := w₀.storeV ++ List.replicate acc.2.2.1.length ⟨.pending, true⟩ }
  ∧ (∀ k, alookup acc.1.kv k =
       if k ∈ acc.2.2.1 then
         some ⟨now + kv₁.ttl, w₀.storeV.length + idxOfK acc.2.2.1 k⟩
       else alookup kv₁.kv k)
  ∧ (∀ k, alookup acc.2.2.2 k =
       if k ∈ done then some (pidSpec kv₁ w₀ now acc.2.2.1 k) else none)

/-! ## The bounded-concurrency executor (src/parallel/handle.ts, callbacks.ts)

`runParallel`/`handleParallel` share one loop: for each unit of work in input
order, start it, add its promise to the outstanding set `queue`, push the
promise onto the ordered `result` array, and, if `queue.size >= concurrency`,
`await Promise.race(queue)`.  Since the loop body is synchronous between
`await`s, completions (each of which deletes its promise from `queue`) can
only be observed while the loop is suspended at the race, or after the loop
has ended (while awaiting `Promise.all`).  The transition system below makes
these suspension points explicit:

* `run`: the loop is executing synchronously and may admit the next unit;
* `wait`: the loop is suspended at `Promise.race` and nothing has completed
  since it suspended;
* `ready`: the loop is suspended at the race and at least one outstanding
  operation has completed, so the race is settled and the loop may resume
  (more completions may still interleave before it does).

`finish` steps are also enabled once the admission loop has ended
(`nextIdx = N`), modelling completions observed while `Promise.all` is
awaited.  `started` records the order in which units were pushed onto the
`result` array. -/

inductive RPhase where
  | run : RPhase
  | wait : RPhase
  | ready : RPhase
deriving DecidableEq

structure RunState where
  nextIdx : Nat
  outstanding : Finset Nat
  phase : RPhase
  started : List Nat
deriving DecidableEq

def RunState.init : RunState := ⟨0, ∅, .run, []⟩

inductive RunStep (C N : Nat) : RunState → RunState → Prop where
  | start (s : RunState) (hphase : s.phase = .run) (hidx : s.nextIdx < N) :
      RunStep C N s
        { nextIdx := s.nextIdx + 1,
          outstanding := insert s.nextIdx s.outstanding,
          phase := if C ≤ (insert s.nextIdx s.outstanding).card then .wait else .run,
          started := s.started ++ [s.nextIdx] }
  | finish (s : RunState) (j : Nat) (hsusp : s.phase ≠ .run ∨ s.nextIdx = N)
      (hj : j ∈ s.outstanding) :
      RunStep C N s { s with outstanding := s.outstanding.erase j, phase := .ready }
  | resume (s : RunState) (hphase : s.phase = .ready) :
      RunStep C N s { s with phase := .run }

def RunReachable (C N : Nat) (s : RunState) : Prop :=
  Relation.ReflTransGen (RunStep C N) RunState.init s

/-- The effective ceiling on the outstanding set: `C`, except that the loop
always admits one unit before checking the ceiling, so even `C = 0` allows one
outstanding operation. -/
def runBound (C : Nat) : Nat := max C 1

/-- The inductive invariant of the executor: the `result` array (`started`)
holds exactly the indices `0 .. nextIdx-1` in order, outstanding operations
are already-admitted units, and the outstanding count is below the ceiling —
strictly below whenever the loop is not parked at the race. -/
def RunInv (C : Nat) (s : RunState) : Prop :=
  s.started = List.range s.nextIdx
  ∧ (∀ j ∈ s.outstanding, j < s.nextIdx)
  ∧ (s.phase = .wait → s.outstanding.card ≤ runBound C)
  ∧ (s.phase ≠ .wait → s.outstanding.card + 1 ≤ runBound C)

/-! ## Batch splitting (src/parallel/batch.ts)

`batchParallel` eagerly splits the input into slices of `batchSize` (last
slice may be short), runs `handleParallel` over the slices, and returns
`result.flat()`. -/

def flattenL {A : Type} : List (List A) → List A
  | [] => []
  | l :: ls => l ++ flattenL ls

def batchesOf {A : Type} (batchSize : Nat) : List A → List A → List (List A)
  | cur, [] => if cur.length = 0 then [] else [cur]
  | cur, x :: xs =>
      if (cur ++ [x]).length < batchSize then batchesOf batchSize (cur ++ [x]) xs
      else (cur ++ [x]) :: batchesOf batchSize [] xs

def batchesOfAll {A : Type} (batchSize : Nat) (xs : List A) : List (List A) :=
  batchesOf batchSize [] xs

/-! ## Concrete instances used by counterexamples and witnesses -/

instance {ε α : Type} [DecidableEq ε] [DecidableEq α] : DecidableEq (Except ε α) :=
  fun a b =>
    match a, b with
    | .error x, .error y =>
        if h : x = y then isTrue (congrArg Except.error h)
        else isFalse (fun hc => h (Except.error.inj hc))
    | .error _, .ok _ => isFalse (fun hc => Except.noConfusion hc)
    | .ok _, .error _ => isFalse (fun hc => Except.noConfusion hc)
    | .ok x, .ok y =>
        if h : x = y then isTrue (congrArg Except.ok h)
        else isFalse (fun hc => h (Except.ok.inj hc))

/-- Promise store used by the standalone `MemCache` claims: promises carry no
interesting value, only their settlement state. -/
abbrev UStore : Type := PromStore Unit Unit

/-- A loader that starts a new load: allocates a fresh pending promise and
returns its id. -/
def freshLoader : Nat → UStore → Nat × UStore :=
  fun _ s => (s.length, s ++ [⟨.pending, false⟩])

/-- An empty `MemCache` with `ttl = 0` (entries expire the instant they are
created). -/
def zeroTtlCache : MemCache Nat Nat UStore :=
  { ttl := 0, load := none, kv := [], expiredDeleteAt := 0 }

/-- A `MemCache` without a default loader holding a valid (unexpired at
`now = 0`) entry for key 1. -/
def noLoaderCache : MemCache Nat Nat UStore :=
  { ttl := 1000, load := none, kv := [(1, ⟨1000, 77⟩)], expiredDeleteAt := 1000 }

def emptyAggWorld : AggWorld Nat Nat Nat := ⟨[], [], []⟩

/-- An aggregate cache over numeric keys whose values are their own keys and
whose batch loader echoes the requested keys. -/
def idAggregate (ttl : Int) : MemAggregateCache Nat Nat Nat Nat :=
  .create ttl (fun v => v) (fun ks => .ok ks) 0

/-- A batch loader that, asked for `[2]`, returns an extra record for key 1 —
a key that was requested by the surrounding call but was not missing. -/
def extraRecordLoad : List Nat → Except Nat (List Nat) :=
  fun ks => if ks = [2] then .ok [1, 2] else .ok ks

def extraRecordAggregate : MemAggregateCache Nat Nat Nat Nat :=
  .create 1000 (fun v => v) extraRecordLoad 0

/-- An aggregate cache whose batch loader always fails with error 7. -/
def failingAggregate : MemAggregateCache Nat Nat Nat Nat :=
  .create 1000 (fun v => v) (fun _ => .error 7) 0

/-- The run-model state after admitting unit 0. -/
def oneAdmitted : RunState := { nextIdx := 1, outstanding := {0}, phase := .run, started := [0] }

/-- First call of the extra-record scenario: `getMany [1]` primes the item
cache with key 1. -/
def c6FirstRun : MemAggregateCache Nat Nat Nat Nat × AggWorld Nat Nat Nat ×
    Except (AggError Nat Nat) (List Nat) :=
  extraRecordAggregate.getMany 0 [1] emptyAggWorld

/-- Second call of the extra-record scenario: `getMany [1, 2]` finds key 1
cached, so the missing keys are `[2]`, and the batch loader returns an extra
record whose key 1 is not among them. -/
def c6SecondRun : MemAggregateCache Nat Nat Nat Nat × AggWorld Nat Nat Nat ×
    Except (AggError Nat Nat) (List Nat) :=
  c6FirstRun.1.getMany 0 [1, 2] c6FirstRun.2.1

/-- A batch loader that, asked for `[1, 2]`, resolves key 1 correctly and then
returns a record for key 999, which was never requested. -/
def offenderLoad : List Nat → Except Nat (List Nat) :=
  fun ks => if ks = [1, 2] then .ok [1, 999] else .ok ks

def offenderAggregate : MemAggregateCache Nat Nat Nat Nat :=
  .create 1000 (fun v => v) offenderLoad 0

/-- `getMany [1, 2]` on a fresh cache with the offending loader. -/
def c6OffRun : MemAggregateCache Nat Nat Nat Nat × AggWorld Nat Nat Nat ×
    Except (AggError Nat Nat) (List Nat) :=
  offenderAggregate.getMany 0 [1, 2] emptyAggWorld

/-- A batch loader that, asked for `[1, 2]`, returns only a record for the
unrequested key 999. -/
def wrongKeyLoad : List Nat → Except Nat (List Nat) :=
  fun ks => if ks = [1, 2] then .ok [999] else .ok ks

def wrongKeyAggregate : MemAggregateCache Nat Nat Nat Nat :=
  .create 1000 (fun v => v) wrongKeyLoad 0

/-! ## Lemmas: association lists -/

theorem alookup_aset_self {K β : Type} [DecidableEq K]
    (l : List (K × β)) (k : K) (b : β) : alookup (aset l k b) k = some b := by
  induction l with
  | nil => simp [aset, alookup]
  | cons p rest ih =>
    by_cases h : p.1 = k
    · simp [aset, alookup, h]
    · simp [aset, alookup, h, ih]

theorem alookup_aset_ne {K β : Type} [DecidableEq K]
    (l : List (K × β)) (k k' : K) (b : β) (h : k' ≠ k) :
    alookup (aset l k b) k' = alookup l k' := by
  have hk : ¬ k = k' := fun hh => h hh.symm
  induction l with
  | nil => simp [aset, alookup, hk]
  | cons p rest ih =>
    obtain ⟨pk, pb⟩ := p
    by_cases hp : pk = k
    · subst hp
      simp [aset, alookup, hk]
    · simp only [aset, if_neg hp]
      by_cases hpk : pk = k'
      · simp [alookup, hpk]
      · simp [alookup, hpk, ih]

theorem alookup_mem {K β : Type} [DecidableEq K]
    (l : List (K × β)) (k : K) (b : β) (h : alookup l k = some b) : (k, b) ∈ l := by
  induction l with
  | nil => simp [alookup] at h
  | cons p rest ih =>
    obtain ⟨pk, pb⟩ := p
    by_cases hp : pk = k
    · subst hp
      simp only [alookup, if_pos rfl] at h
      cases h
      exact List.mem_cons_self _ _
    · simp only [alookup, if_neg hp] at h
      exact List.mem_cons_of_mem _ (ih h)

/-! ## Lemmas: promise store surgery -/

theorem storeResolve_append {V E : Type} (pre post : PromStore V E) (n : Nat) (v : V) :
    storeResolve (pre ++ post) (pre.length + n) v = pre ++ storeResolve post n v := by
  induction pre with
  | nil => simp [storeResolve]
  | cons p ps ih =>
    have hl : (p :: ps).length + n = (ps.length + n) + 1 := by
      simp [Nat.succ_add]
    rw [hl]
    show p :: storeResolve (ps ++ post) (ps.length + n) v = _
    rw [ih]
    rfl

theorem storeReject_append {V E : Type} (pre post : PromStore V E) (n : Nat) (e : E) :
    storeReject (pre ++ post) (pre.length + n) e = pre ++ storeReject post n e := by
  induction pre with
  | nil => simp [storeReject]
  | cons p ps ih =>
    have hl : (p :: ps).length + n = (ps.length + n) + 1 := by
      simp [Nat.succ_add]
    rw [hl]
    show p :: storeReject (ps ++ post) (ps.length + n) e = _
    rw [ih]
    rfl

/-! ## Lemmas: the expiry sweep -/

theorem MemCache.deleteExpiredIfNeed_ttl {K α W : Type} (c : MemCache K α W)
    (now : Int) : (c.deleteExpiredIfNeed now).ttl = c.ttl := by
  unfold MemCache.deleteExpiredIfNeed
  split <;> rfl

theorem MemCache.deleteExpiredIfNeed_load {K α W : Type} (c : MemCache K α W)
    (now : Int) : (c.deleteExpiredIfNeed now).load = c.load := by
  unfold MemCache.deleteExpiredIfNeed
  split <;> rfl

theorem MemCache.deleteExpiredIfNeed_skip {K α W : Type} (c : MemCache K α W)
    (now : Int) (h : c.expiredDeleteAt > now) : c.deleteExpiredIfNeed now = c := by
  unfold MemCache.deleteExpiredIfNeed
  exact if_pos h

theorem alookup_filter_of_valid {K α : Type} [DecidableEq K]
    (l : List (K × MemCacheEntry α)) (now : Int) (k : K) (e : MemCacheEntry α)
    (he : alookup l k = some e) (hv : e.isValid now = true) :
    alookup (l.filter (fun p => p.2.isValid now)) k = some e := by
  induction l with
  | nil => simp [alookup] at he
  | cons p rest ih =>
    obtain ⟨pk, pe⟩ := p
    by_cases hp : pk = k
    · subst hp
      simp only [alookup, if_pos rfl] at he
      cases he
      simp [List.filter, hv, alookup]
    · simp only [alookup, if_neg hp] at he
      by_cases hq : pe.isValid now = true
      · simp [List.filter, hq, alookup, hp, ih he]
      · simp only [List.filter]
        rw [Bool.not_eq_true] at hq
        simp only [hq]
        exact ih he

theorem alookup_filter_valid {K α : Type} [DecidableEq K]
    (l : List (K × MemCacheEntry α)) (now : Int) (k : K) (e : MemCacheEntry α)
    (he : alookup (l.filter (fun p => p.2.isValid now)) k = some e) :
    e.isValid now = true := by
  have hm := alookup_mem _ _ _ he
  have := List.of_mem_filter hm
  simpa using this

theorem alookup_sweep_of_valid {K α W : Type} [DecidableEq K] (c : MemCache K α W)
    (now : Int) (k : K) (e : MemCacheEntry α)
    (he : alookup c.kv k = some e) (hv : e.isValid now = true) :
    alookup (c.deleteExpiredIfNeed now).kv k = some e := by
  unfold MemCache.deleteExpiredIfNeed
  split
  · exact he
  · exact alookup_filter_of_valid _ _ _ _ he hv

/-! ## Lemmas: ControlPromise -/

theorem ControlPromise.new_pending {V E : Type} :
    (ControlPromise.new : ControlPromise V E).pending = true := rfl

theorem CPAction.apply_settled {V E : Type} (a : CPAction V E)
    (p : ControlPromise V E) (h : p.pending = false) : a.apply p = p := by
  cases a <;> simp [CPAction.apply, ControlPromise.resolve, ControlPromise.reject, h]

theorem CPAction.apply_new_settled {V E : Type} (a : CPAction V E) :
    (a.apply (ControlPromise.new : ControlPromise V E)).pending = false := by
  cases a <;>
    simp [CPAction.apply, ControlPromise.resolve, ControlPromise.reject,
      ControlPromise.new, ControlPromise.pending]

theorem applyAllCP_settled {V E : Type} (acts : List (CPAction V E))
    (p : ControlPromise V E) (h : p.pending = false) : applyAllCP acts p = p := by
  induction acts with
  | nil => rfl
  | cons a rest ih =>
    show applyAllCP rest (a.apply p) = p
    rw [CPAction.apply_settled a p h]
    exact ih

/-- Claim C9, confirmed. ManualFuture first-writer-wins: starting from a fresh `ControlPromise`,
for every first call (resolve or reject) and every sequence of subsequent
calls of either kind, the state after the whole sequence equals the state
after the first call alone (all later calls are no-ops); after that first
call the future is no longer pending, the `fulfilled`/`rejected` flags report
exactly the outcome of the first call, and the settled `outcome` — the one
eventual value every awaiting holder observes — is the first call's value or
error. -/
theorem claimC9_first_writer_wins {V E : Type} (a : CPAction V E)
    (acts : List (CPAction V E)) :
    applyAllCP (a :: acts) ControlPromise.new = a.apply ControlPromise.new
    ∧ (a.apply (ControlPromise.new : ControlPromise V E)).pending = false
    ∧ (a.apply (ControlPromise.new : ControlPromise V E)).fulfilled
        = (match a with | .resolveA _ => true | .rejectA _ => false)
    ∧ (a.apply (ControlPromise.new : ControlPromise V E)).rejected
        = (match a with | .resolveA _ => false | .rejectA _ => true)
    ∧ (a.apply (ControlPromise.new : ControlPromise V E)).outcome
        = some (match a with | .resolveA v => Sum.inl v | .rejectA e => Sum.inr e) := by
  refine ⟨?_, CPAction.apply_new_settled a, ?_, ?_, ?_⟩
  · show applyAllCP acts (a.apply ControlPromise.new) = a.apply ControlPromise.new
    exact applyAllCP_settled acts _ (CPAction.apply_new_settled a)
  · cases a <;>
      simp [CPAction.apply, ControlPromise.resolve, ControlPromise.reject,
        ControlPromise.new, ControlPromise.pending, ControlPromise.fulfilled]
  · cases a <;>
      simp [CPAction.apply, ControlPromise.resolve, ControlPromise.reject,
        ControlPromise.new, ControlPromise.pending, ControlPromise.rejected]
  · cases a <;>
      simp [CPAction.apply, ControlPromise.resolve, ControlPromise.reject,
        ControlPromise.new, ControlPromise.pending, nativeSettle]

/-! ## Lemmas: MemCache.get -/

theorem MemCache.get_install {K α W : Type} [DecidableEq K] (c : MemCache K α W)
    (now : Int) (key : K) (loader : K → W → α × W) (w : W)
    (h : (c.deleteExpiredIfNeed now).hasValidEntry now key = false) :
    c.get now key (some loader) w =
      .ok ({ c.deleteExpiredIfNeed now with
               kv := aset (c.deleteExpiredIfNeed now).kv key
                       ⟨now + c.ttl, (loader key w).1⟩ },
           (loader key w).1, (loader key w).2) := by
  have httl := MemCache.deleteExpiredIfNeed_ttl c now
  unfold MemCache.hasValidEntry at h
  unfold MemCache.get MemCache.getBody
  cases halo : alookup (c.deleteExpiredIfNeed now).kv key with
  | none =>
    simp only [Option.orElse, httl]
  | some e =>
    rw [halo] at h
    replace h : e.isValid now = false := h
    simp only [Option.orElse, h, httl]
    simp

theorem MemCache.get_of_valid {K α W : Type} [DecidableEq K] (c : MemCache K α W)
    (now : Int) (key : K) (loaderArg : Option (K → W → α × W)) (w : W)
    (e : MemCacheEntry α)
    (he : alookup (c.deleteExpiredIfNeed now).kv key = some e)
    (hv : e.isValid now = true)
    (hld : (loaderArg.orElse (fun _ => c.load)).isSome = true) :
    c.get now key loaderArg w = .ok (c.deleteExpiredIfNeed now, e.value, w) := by
  unfold MemCache.get MemCache.getBody
  rw [MemCache.deleteExpiredIfNeed_load]
  cases hl : loaderArg.orElse (fun _ => c.load) with
  | none => rw [hl] at hld; simp at hld
  | some loader =>
    simp only [he, hv, if_true]

/-- Helper: an element found by `get?` is still found at the same index after
appending on the right. -/
theorem listGetAppendOfSome {A : Type} :
    ∀ (s t : List A) (n : Nat) (x : A), s.get? n = some x → (s ++ t).get? n = some x := by
  intro s
  induction s with
  | nil => intro t n x h; simp [List.get?] at h
  | cons a rest ih =>
    intro t n x h
    cases n with
    | zero => simpa using h
    | succ m =>
      simp only [List.get?] at h
      simpa using ih t m x h

/-- Claim C1, counterexample.  The claim asserts that once `get` has stored an
entry for a key, every further `get` for that key arriving before the load
settles reuses the stored eventual value and does not invoke the loader
again.  On a cache with `ttl = 0` this fails at a single instant `now = 0`:
the first `get` installs promise 0 and its load is still pending, yet the
second `get` invokes the loader a second time (the store grows to two pending
promises) and returns the different promise 1. -/
theorem claimC1_counterexample :
    zeroTtlCache.get 0 1 (some freshLoader) [] =
      .ok ({ ttl := 0, load := none, kv := [(1, ⟨0, 0⟩)], expiredDeleteAt := 0 },
           0, [⟨.pending, false⟩])
    ∧ ({ ttl := 0, load := none, kv := [(1, ⟨0, 0⟩)], expiredDeleteAt := 0 } :
         MemCache Nat Nat UStore).get 0 1 (some freshLoader) [⟨.pending, false⟩] =
      .ok ({ ttl := 0, load := none, kv := [(1, ⟨0, 1⟩)], expiredDeleteAt := 0 },
           1, [⟨.pending, false⟩, ⟨.pending, false⟩]) :=
  ⟨rfl, rfl⟩

/-- Claim C1, amended: single-flight per key holds while the freshly created
entry is unexpired.  When no valid entry exists for `k` at `t0`, `get` invokes
the loader exactly once, stores the entry wrapping the loader's still-pending
promise before it settles, and every further `get` for `k` at any `t1` with
`t0 ≤ t1 < t0 + ttl` (in particular: before the load settles, since the
promise sits pending in the store untouched) returns the same stored promise
id and does not invoke the loader again (the promise store is returned
unchanged). -/
theorem claimC1_amended (c : MemCache Nat Nat UStore) (k : Nat) (t0 t1 : Int)
    (s : UStore)
    (hmiss : (c.deleteExpiredIfNeed t0).hasValidEntry t0 k = false)
    (_h01 : t0 ≤ t1) (h1 : t1 < t0 + c.ttl) :
    ∃ c1, c.get t0 k (some freshLoader) s = .ok (c1, s.length, s ++ [⟨.pending, false⟩])
      ∧ ∃ c2, c1.get t1 k (some freshLoader) (s ++ [⟨.pending, false⟩])
          = .ok (c2, s.length, s ++ [⟨.pending, false⟩]) := by
  have h1get := MemCache.get_install c t0 k freshLoader s hmiss
  refine ⟨_, h1get, ?_⟩
  set c1 : MemCache Nat Nat UStore :=
    { c.deleteExpiredIfNeed t0 with
        kv := aset (c.deleteExpiredIfNeed t0).kv k ⟨t0 + c.ttl, s.length⟩ } with hc1
  have hkv : alookup c1.kv k = some ⟨t0 + c.ttl, s.length⟩ := by
    rw [hc1]
    exact alookup_aset_self _ _ _
  have hvalid : (⟨t0 + c.ttl, s.length⟩ : MemCacheEntry Nat).isValid t1 = true := by
    simp only [MemCacheEntry.isValid]
    exact decide_eq_true h1
  have hswept := alookup_sweep_of_valid c1 t1 k _ hkv hvalid
  exact ⟨c1.deleteExpiredIfNeed t1,
    MemCache.get_of_valid c1 t1 k (some freshLoader) _ _ hswept hvalid rfl⟩

/-- Claim C1 amended, witness: a fresh cache with ttl 10, a first `get` at time
0 and a second at time 5. -/
theorem claimC1_amended_witness :
    ∃ c1, ({ ttl := 10, load := none, kv := [], expiredDeleteAt := 0 } :
        MemCache Nat Nat UStore).get 0 1 (some freshLoader) []
        = .ok (c1, 0, [⟨.pending, false⟩])
      ∧ ∃ c2, c1.get 5 1 (some freshLoader) [⟨.pending, false⟩]
          = .ok (c2, 0, [⟨.pending, false⟩]) :=
  claimC1_amended _ 1 0 5 [] (by decide) (by decide) (by decide)

/-- Claim C8, counterexample.  The claim asserts that when a valid entry
exists, `get` does not fail even if neither a call-site loader nor a default
loader is supplied.  In the source the `!loader` check precedes the entry
lookup, so `get` throws the no-loader error although `noLoaderCache` holds a
valid entry for key 1 at `now = 0`. -/
theorem claimC8_counterexample :
    noLoaderCache.hasValidEntry 0 1 = true
    ∧ noLoaderCache.get 0 1 none [] = .error "Loader is required but not provided" :=
  ⟨rfl, rfl⟩

/-- Claim C8, amended.  The no-loader check happens before the entry lookup:
`get` without a call-site loader on a cache without a default loader always
fails with the no-loader error, valid entry or not.  When a loader is
supplied (or a default exists) and a valid entry exists, the stored eventual
value is returned without invoking any loader (the effect state `w` is
returned unchanged). -/
theorem claimC8_amended :
    (∀ (K α W : Type) [DecidableEq K] (c : MemCache K α W) (now : Int) (k : K)
       (w : W), c.load = none →
       c.get now k none w = .error "Loader is required but not provided")
    ∧ (∀ (K α W : Type) [DecidableEq K] (c : MemCache K α W) (now : Int) (k : K)
         (ld : K → W → α × W) (w : W) (e : MemCacheEntry α),
         alookup (c.deleteExpiredIfNeed now).kv k = some e →
         e.isValid now = true →
         c.get now k (some ld) w = .ok (c.deleteExpiredIfNeed now, e.value, w)) := by
  constructor
  · intro K α W _ c now k w h
    unfold MemCache.get MemCache.getBody
    rw [MemCache.deleteExpiredIfNeed_load]
    simp [Option.orElse, h]
  · intro K α W _ c now k ld w e he hv
    exact MemCache.get_of_valid c now k (some ld) w e he hv rfl

/-- Claim C8 amended, witness: on `noLoaderCache` (no default loader, valid
entry for key 1 at time 0), a `get` without loader fails with the no-loader
error, and a `get` with a loader returns the stored promise 77 without
touching the effect state. -/
theorem claimC8_amended_witness :
    noLoaderCache.get 0 2 none [] = .error "Loader is required but not provided"
    ∧ noLoaderCache.get 0 1 (some freshLoader) [] =
        .ok (noLoaderCache.deleteExpiredIfNeed 0, 77, []) :=
  ⟨claimC8_amended.1 Nat Nat UStore noLoaderCache 0 2 [] rfl,
   claimC8_amended.2 Nat Nat UStore noLoaderCache 0 1 freshLoader [] ⟨1000, 77⟩
     (by decide) (by decide)⟩

/-- Claim C10, confirmed.  The at-most-one-load-per-key guarantee is
TTL-bounded, not settlement-bounded: validity is `expiresAt > now` and never
consults the stored promise's settlement.  First conjunct (general): if `get`
finds no valid entry for `k` — in particular when a stored entry has expired
while its load (promise `e.value`) is still pending — it invokes the loader
again (allocating the fresh promise `s.length`) and replaces the entry, and
afterwards the old load is still pending alongside the new one: two loads in
flight for the same key.  Remaining conjuncts (concrete): with `ttl = 0`,
`getMany [1, 1]` fails to deduplicate — the batch loader is invoked with
`[1, 1]`, and the ControlPromise reserved by the first iteration is left
pending forever while the call still returns. -/
theorem claimC10_ttl_bounded :
    (∀ (c : MemCache Nat Nat UStore) (k : Nat) (now : Int) (s : UStore)
       (e : MemCacheEntry Nat),
       alookup c.kv k = some e →
       e.isValid now = false →
       (c.deleteExpiredIfNeed now).hasValidEntry now k = false →
       s.get? e.value = some ⟨.pending, false⟩ →
       c.get now k (some freshLoader) s =
         .ok ({ c.deleteExpiredIfNeed now with
                  kv := aset (c.deleteExpiredIfNeed now).kv k ⟨now + c.ttl, s.length⟩ },
              s.length, s ++ [⟨.pending, false⟩])
       ∧ (s ++ [(⟨.pending, false⟩ : Prom Unit Unit)]).get? e.value =
           some ⟨.pending, false⟩)
    ∧ ((idAggregate 0).getMany 0 [1, 1] emptyAggWorld).2.1.batchLog = [[1, 1]]
    ∧ ((idAggregate 0).getMany 0 [1, 1] emptyAggWorld).2.2 = .ok [1, 1]
    ∧ ((idAggregate 0).getMany 0 [1, 1] emptyAggWorld).2.1.storeV.get? 0 =
        some ⟨.pending, true⟩ := by
  refine ⟨?_, rfl, rfl, rfl⟩
  intro c k now s e _halo _hexp hmiss hpend
  exact ⟨MemCache.get_install c now k freshLoader s hmiss,
    listGetAppendOfSome s _ _ _ hpend⟩

/-- Claim C10, witness: a cache whose single entry for key 1 expired at time 5
(entry made at time 0 with ttl 5) while its load, promise 0, is still
pending. -/
theorem claimC10_witness :
    ({ ttl := 5, load := none, kv := [(1, ⟨5, 0⟩)], expiredDeleteAt := 5 } :
        MemCache Nat Nat UStore).get 5 1 (some freshLoader) [⟨.pending, false⟩] =
      .ok ({ ttl := 5, load := none, kv := [(1, ⟨10, 1⟩)], expiredDeleteAt := 10 },
           1, [⟨.pending, false⟩, ⟨.pending, false⟩])
    ∧ [⟨.pending, false⟩, (⟨.pending, false⟩ : Prom Unit Unit)].get? 0 =
        some ⟨.pending, false⟩ := by
  have h := claimC10_ttl_bounded.1
    { ttl := 5, load := none, kv := [(1, ⟨5, 0⟩)], expiredDeleteAt := 5 } 1 5
    [⟨.pending, false⟩] ⟨5, 0⟩ (by decide) (by decide) (by decide) (by decide)
  exact h

/-! ## Lemmas: the bounded-concurrency executor -/

theorem runInv_init {C : Nat} : RunInv C RunState.init := by
  refine ⟨rfl, ?_, ?_, ?_⟩
  · intro j hj
    simp [RunState.init] at hj
  · intro h
    simp [RunState.init] at h
  · intro _
    have : (RunState.init.outstanding).card = 0 := rfl
    rw [this]
    exact Nat.le_of_lt_succ (Nat.lt_succ_of_le (le_max_right C 1))

theorem runInv_step {C N : Nat} {s t : RunState} (hstep : RunStep C N s t)
    (hinv : RunInv C s) : RunInv C t := by
  obtain ⟨hstart, hlt, hwait, hrun⟩ := hinv
  cases hstep with
  | start hphase hidx =>
    have hni : s.nextIdx ∉ s.outstanding := fun hmem => absurd (hlt _ hmem) (by omega)
    have hcard : (insert s.nextIdx s.outstanding).card = s.outstanding.card + 1 :=
      Finset.card_insert_of_not_mem hni
    have hple : s.outstanding.card + 1 ≤ runBound C := hrun (by rw [hphase]; decide)
    refine ⟨?_, ?_, ?_, ?_⟩
    · simp only [hstart]
      exact (List.range_succ s.nextIdx).symm
    · intro j hj
      show j < s.nextIdx + 1
      rcases Finset.mem_insert.mp hj with hj | hj
      · omega
      · exact Nat.lt_succ_of_lt (hlt _ hj)
    · intro _
      rw [hcard]
      exact hple
    · intro hnw
      by_cases hC : C ≤ (insert s.nextIdx s.outstanding).card
      · exfalso
        apply hnw
        simp [if_pos hC]
      · rw [hcard] at hC ⊢
        have : s.outstanding.card + 1 < C := Nat.lt_of_not_le hC
        have : s.outstanding.card + 1 + 1 ≤ C := this
        exact le_trans this (le_max_left C 1)
  | finish j hsusp hj =>
    have hpos : 1 ≤ s.outstanding.card := Finset.card_pos.mpr ⟨j, hj⟩
    have hce : (s.outstanding.erase j).card + 1 = s.outstanding.card := by
      rw [Finset.card_erase_of_mem hj]
      omega
    have hcb : s.outstanding.card ≤ runBound C := by
      by_cases hph : s.phase = .wait
      · exact hwait hph
      · exact le_trans (Nat.le_succ _) (hrun hph)
    refine ⟨hstart, ?_, ?_, ?_⟩
    · intro j' hj'
      exact hlt _ (Finset.mem_of_mem_erase hj')
    · intro h
      exact RPhase.noConfusion h
    · intro _
      rw [hce]
      exact hcb
  | resume hphase =>
    refine ⟨hstart, hlt, ?_, ?_⟩
    · intro h
      exact RPhase.noConfusion h
    · intro _
      exact hrun (by rw [hphase]; decide)

theorem runInv_reachable {C N : Nat} {s : RunState} (h : RunReachable C N s) :
    RunInv C s := by
  induction h with
  | refl => exact runInv_init
  | tail _hpre hstep ih => exact runInv_step hstep ih

/-- Claim C2, confirmed.  Sliding admission window: over every execution of the
admission loop (modelled by `RunReachable`, which starts each unit first and
suspends only afterwards when the outstanding count has reached the
concurrency), for `C ≥ 1` at most `C` operations are simultaneously
outstanding in every reachable state, and for `C = 0` or `C = 1` the loop can
only be at an admission point (`phase = run`) when nothing is outstanding, so
every unit waits for the previous one to finish: execution is strictly
sequential. -/
theorem claimC2_sliding_window (C N : Nat) (s : RunState) (h : RunReachable C N s) :
    (1 ≤ C → s.outstanding.card ≤ C)
    ∧ (C ≤ 1 → s.phase = .run → s.outstanding = ∅) := by
  obtain ⟨-, -, hwait, hrun⟩ := runInv_reachable h
  constructor
  · intro hC
    have hb : runBound C = C := max_eq_left hC
    by_cases hph : s.phase = .wait
    · rw [← hb]
      exact hwait hph
    · have := hrun hph
      rw [hb] at this
      omega
  · intro hC hph
    have hb : runBound C = 1 := by
      unfold runBound
      omega
    have := hrun (by rw [hph]; decide)
    rw [hb] at this
    have hz : s.outstanding.card = 0 := by omega
    exact Finset.card_eq_zero.mp hz

/-- Claim C2, witness: with `C = 2` the state reached after admitting unit 0
has at most 2 outstanding; with `C = 1` the initial admission point has an
empty outstanding set. -/
theorem claimC2_witness :
    oneAdmitted.outstanding.card ≤ 2 ∧ RunState.init.outstanding = ∅ := by
  have hstep : RunStep 2 3 RunState.init oneAdmitted := by
    have he : oneAdmitted =
        { nextIdx := RunState.init.nextIdx + 1,
          outstanding := insert RunState.init.nextIdx RunState.init.outstanding,
          phase := if 2 ≤ (insert RunState.init.nextIdx RunState.init.outstanding).card
                   then RPhase.wait else RPhase.run,
          started := RunState.init.started ++ [RunState.init.nextIdx] } := by decide
    rw [he]
    exact RunStep.start RunState.init rfl (by decide)
  exact ⟨(claimC2_sliding_window 2 3 oneAdmitted
            (Relation.ReflTransGen.single hstep)).1 (by omega),
         (claimC2_sliding_window 1 0 RunState.init
            Relation.ReflTransGen.refl).2 (by omega) rfl⟩

theorem batchesOf_flatten {A R : Type} (bsize : Nat) (f : A → R) :
    ∀ (ys cur : List A),
      flattenL ((batchesOf bsize cur ys).map (fun b => b.map f)) = (cur ++ ys).map f := by
  intro ys
  induction ys with
  | nil =>
    intro cur
    by_cases hcur : cur.length = 0
    · have : cur = [] := List.length_eq_zero.mp hcur
      subst this
      simp [batchesOf, flattenL]
    · simp [batchesOf, hcur, flattenL]
  | cons x ys ih =>
    intro cur
    by_cases hlt : (cur ++ [x]).length < bsize
    · simp only [batchesOf, if_pos hlt]
      rw [ih (cur ++ [x])]
      simp
    · simp only [batchesOf, if_neg hlt]
      simp only [List.map_cons, flattenL]
      rw [ih []]
      simp

/-- Claim C3, confirmed.  Order preservation: in every completed execution of
the executor (`nextIdx = N`, having taken any interleaving of completions),
the ordered `result` array holds unit `i`'s promise at index `i`, so after
`Promise.all` the result at index `i` is unit `i`'s value `res i` regardless
of completion order; and the flattened result of `batchParallel` (handler
results per batch, concatenated) equals the per-item results in input
order. -/
theorem claimC3_order_preservation {R A : Type} (C N : Nat) (res : Nat → R)
    (s : RunState) (bsize : Nat) (xs : List A) (f : A → R)
    (hreach : RunReachable C N s) (hN : s.nextIdx = N) :
    s.started.map res = (List.range N).map res
    ∧ flattenL ((batchesOfAll bsize xs).map (fun b => b.map f)) = xs.map f := by
  constructor
  · have hst := (runInv_reachable hreach).1
    rw [hst, hN]
  · have h := batchesOf_flatten bsize f xs []
    simpa [batchesOfAll] using h

/-- Claim C3, witness: the trivially completed run with `N = 0`, and a
three-item batch split with `batchSize = 2`. -/
theorem claimC3_witness :
    RunState.init.started.map (fun i => i) = (List.range 0).map (fun i => i)
    ∧ flattenL ((batchesOfAll 2 [10, 20, 30]).map (fun b => b.map (fun x => x)))
        = [10, 20, 30].map (fun x => x) :=
  claimC3_order_preservation 2 0 (fun i => i) RunState.init 2 [10, 20, 30]
    (fun x => x) Relation.ReflTransGen.refl rfl

/-! ## Lemmas: missing keys, indices, sweeping idempotence -/

theorem missingKeys_append {K α W : Type} [DecidableEq K] (c : MemCache K α W)
    (now : Int) (done : List K) (k : K) :
    missingKeys c now (done ++ [k]) =
      if c.hasValidEntry now k = true ∨ k ∈ missingKeys c now done
      then missingKeys c now done
      else missingKeys c now done ++ [k] := by
  unfold missingKeys
  rw [List.foldl_append]
  rfl

theorem mem_missingKeys_aux {K α W : Type} [DecidableEq K] (c : MemCache K α W)
    (now : Int) (k : K) :
    ∀ (keys acc : List K),
      k ∈ keys.foldl
          (fun acc k =>
            if c.hasValidEntry now k = true ∨ k ∈ acc then acc else acc ++ [k]) acc
        ↔ k ∈ acc ∨ (k ∈ keys ∧ c.hasValidEntry now k = false) := by
  intro keys
  induction keys with
  | nil => intro acc; simp
  | cons x keys ih =>
    intro acc
    show k ∈ keys.foldl _ (if c.hasValidEntry now x = true ∨ x ∈ acc then acc else acc ++ [x]) ↔ _
    by_cases hx : c.hasValidEntry now x = true ∨ x ∈ acc
    · rw [if_pos hx, ih acc]
      constructor
      · rintro (h | ⟨h1, h2⟩)
        · exact Or.inl h
        · exact Or.inr ⟨List.mem_cons_of_mem _ h1, h2⟩
      · rintro (h | ⟨h1, h2⟩)
        · exact Or.inl h
        · rcases List.mem_cons.mp h1 with rfl | h1
          · rcases hx with hx | hx
            · rw [hx] at h2
              cases h2
            · exact Or.inl hx
          · exact Or.inr ⟨h1, h2⟩
    · rw [if_neg hx, ih (acc ++ [x])]
      push_neg at hx
      constructor
      · rintro (h | ⟨h1, h2⟩)
        · rcases List.mem_append.mp h with h | h
          · exact Or.inl h
          · rcases List.mem_singleton.mp h with rfl
            refine Or.inr ⟨List.mem_cons_self _ _, ?_⟩
            rcases Bool.eq_false_or_eq_true (c.hasValidEntry now k) with hb | hb
            · exact absurd hb hx.1
            · exact hb
        · exact Or.inr ⟨List.mem_cons_of_mem _ h1, h2⟩
      · rintro (h | ⟨h1, h2⟩)
        · exact Or.inl (List.mem_append.mpr (Or.inl h))
        · rcases List.mem_cons.mp h1 with rfl | h1
          · exact Or.inl (List.mem_append.mpr (Or.inr (List.mem_singleton.mpr rfl)))
          · exact Or.inr ⟨h1, h2⟩

theorem mem_missingKeys_iff {K α W : Type} [DecidableEq K] (c : MemCache K α W)
    (now : Int) (k : K) (keys : List K) :
    k ∈ missingKeys c now keys ↔ k ∈ keys ∧ c.hasValidEntry now k = false := by
  unfold missingKeys
  rw [mem_missingKeys_aux]
  simp

theorem missingKeys_nodup_aux {K α W : Type} [DecidableEq K] (c : MemCache K α W)
    (now : Int) :
    ∀ (keys acc : List K), acc.Nodup →
      (keys.foldl
        (fun acc k =>
          if c.hasValidEntry now k = true ∨ k ∈ acc then acc else acc ++ [k]) acc).Nodup := by
  intro keys
  induction keys with
  | nil => intro acc h; exact h
  | cons x keys ih =>
    intro acc hacc
    show ((keys.foldl _ (if c.hasValidEntry now x = true ∨ x ∈ acc then acc else acc ++ [x]))).Nodup
    by_cases hx : c.hasValidEntry now x = true ∨ x ∈ acc
    · rw [if_pos hx]
      exact ih acc hacc
    · rw [if_neg hx]
      push_neg at hx
      refine ih (acc ++ [x]) ?_
      simp [List.nodup_append, hacc, hx.2]

theorem missingKeys_nodup {K α W : Type} [DecidableEq K] (c : MemCache K α W)
    (now : Int) (keys : List K) : (missingKeys c now keys).Nodup :=
  missingKeys_nodup_aux c now keys [] List.nodup_nil

theorem idxOfK_append_mem {K : Type} [DecidableEq K] (l l' : List K) (k : K)
    (h : k ∈ l) : idxOfK (l ++ l') k = idxOfK l k := by
  induction l with
  | nil => cases h
  | cons x xs ih =>
    by_cases hx : x = k
    · simp [idxOfK, hx]
    · rcases List.mem_cons.mp h with rfl | h
      · exact absurd rfl hx
      · simp [idxOfK, hx, ih h]

theorem idxOfK_append_new {K : Type} [DecidableEq K] (l : List K) (k : K)
    (h : k ∉ l) : idxOfK (l ++ [k]) k = l.length := by
  induction l with
  | nil => simp [idxOfK]
  | cons x xs ih =>
    have hx : ¬ x = k := fun hh => h (hh ▸ List.mem_cons_self _ _)
    have hrec := ih (fun hh => h (List.mem_cons_of_mem _ hh))
    simp [idxOfK, hx, hrec]

theorem idxOfK_get_nodup {K : Type} [DecidableEq K] :
    ∀ (l : List K), l.Nodup → ∀ (i : Nat) (h : i < l.length),
      idxOfK l (l.get ⟨i, h⟩) = i := by
  intro l
  induction l with
  | nil => intro _ i h; cases h
  | cons x xs ih =>
    intro hnd i h
    cases i with
    | zero => simp [idxOfK]
    | succ j =>
      have hj : j < xs.length := Nat.lt_of_succ_lt_succ h
      have hmem : xs.get ⟨j, hj⟩ ∈ xs := List.get_mem _ _ _
      have hx : ¬ x = xs.get ⟨j, hj⟩ := by
        intro hh
        exact (List.nodup_cons.mp hnd).1 (hh ▸ hmem)
      show idxOfK (x :: xs) (xs.get ⟨j, hj⟩) = j + 1
      simp only [idxOfK, if_neg hx]
      rw [ih (List.nodup_cons.mp hnd).2 j hj]

theorem replicate_snoc {A : Type} (n : Nat) (a : A) :
    List.replicate n a ++ [a] = List.replicate (n + 1) a := by
  induction n with
  | zero => rfl
  | succ m ih =>
    show a :: (List.replicate m a ++ [a]) = a :: List.replicate (m + 1) a
    rw [ih]

theorem MemCache.deleteExpiredIfNeed_idem {K α W : Type} (c : MemCache K α W)
    (now : Int) (httl : 0 < c.ttl) :
    (c.deleteExpiredIfNeed now).deleteExpiredIfNeed now = c.deleteExpiredIfNeed now := by
  unfold MemCache.deleteExpiredIfNeed
  by_cases h : c.expiredDeleteAt > now
  · rw [if_pos h, if_pos h]
  · rw [if_neg h]
    have hgt : now + c.ttl > now := by omega
    simp only [hgt, if_pos]

theorem MemCache.deleteExpiredIfNeed_wm {K α W : Type} (c : MemCache K α W)
    (now : Int) (httl : 0 < c.ttl) :
    now < (c.deleteExpiredIfNeed now).expiredDeleteAt := by
  unfold MemCache.deleteExpiredIfNeed
  by_cases h : c.expiredDeleteAt > now
  · rw [if_pos h]
    exact h
  · rw [if_neg h]
    show now < now + c.ttl
    omega

theorem MemCache.get_sweep_congr {K α W : Type} [DecidableEq K] (c : MemCache K α W)
    (now : Int) (key : K) (loaderArg : Option (K → W → α × W)) (w : W)
    (httl : 0 < c.ttl) :
    (c.deleteExpiredIfNeed now).get now key loaderArg w = c.get now key loaderArg w := by
  unfold MemCache.get
  rw [MemCache.deleteExpiredIfNeed_idem c now httl]

/-! ## Lemmas: the reservation loop invariant -/

theorem pidSpec_of_invalid {K V E : Type} [DecidableEq K]
    (kv₁ : MemCache K Nat (KvEff K V E)) (w₀ : AggWorld K V E) (now : Int)
    (ktl : List K) (k : K) (h : kv₁.hasValidEntry now k = false) :
    pidSpec kv₁ w₀ now ktl k = w₀.storeV.length + idxOfK ktl k := by
  unfold MemCache.hasValidEntry at h
  unfold pidSpec
  cases halo : alookup kv₁.kv k with
  | none => rfl
  | some e =>
    rw [halo] at h
    replace h : e.isValid now = false := h
    show (if e.isValid now = true then e.value
          else w₀.storeV.length + idxOfK ktl k) = w₀.storeV.length + idxOfK ktl k
    rw [if_neg (by simp [h])]

theorem pidSpec_of_valid {K V E : Type} [DecidableEq K]
    (kv₁ : MemCache K Nat (KvEff K V E)) (w₀ : AggWorld K V E) (now : Int)
    (ktl : List K) (k : K) (e : MemCacheEntry Nat)
    (he : alookup kv₁.kv k = some e) (hv : e.isValid now = true) :
    pidSpec kv₁ w₀ now ktl k = e.value := by
  unfold pidSpec
  rw [he]
  show (if e.isValid now = true then e.value
        else w₀.storeV.length + idxOfK ktl k) = e.value
  rw [if_pos hv]

theorem pidSpec_append {K V E : Type} [DecidableEq K]
    (kv₁ : MemCache K Nat (KvEff K V E)) (w₀ : AggWorld K V E) (now : Int)
    (ktl : List K) (k k' : K)
    (h : kv₁.hasValidEntry now k = false → k ∈ ktl) :
    pidSpec kv₁ w₀ now (ktl ++ [k']) k = pidSpec kv₁ w₀ now ktl k := by
  unfold pidSpec
  unfold MemCache.hasValidEntry at h
  cases halo : alookup kv₁.kv k with
  | none =>
    rw [halo] at h
    rw [idxOfK_append_mem _ _ _ (h rfl)]
  | some e =>
    rw [halo] at h
    show (if e.isValid now = true then e.value
          else w₀.storeV.length + idxOfK (ktl ++ [k']) k) =
        (if e.isValid now = true then e.value
         else w₀.storeV.length + idxOfK ktl k)
    by_cases hv : e.isValid now = true
    · rw [if_pos hv, if_pos hv]
    · have hmem : k ∈ ktl := h (by simp [Bool.eq_false_iff.mpr hv])
      rw [if_neg hv, if_neg hv, idxOfK_append_mem _ _ _ hmem]

theorem phase1_step {K V E : Type} [DecidableEq K] (kv₁ : MemCache K Nat (KvEff K V E))
    (w₀ : AggWorld K V E) (now : Int) (done : List K) (acc : Phase1Acc K V E) (k : K)
    (httl : 0 < kv₁.ttl) (hwm : now < kv₁.expiredDeleteAt)
    (hinv : Phase1Inv kv₁ w₀ now done acc) :
    Phase1Inv kv₁ w₀ now (done ++ [k]) (getManyStep now acc k) := by
  obtain ⟨kv, w, ktl, m⟩ := acc
  obtain ⟨httl', hload', hexp', hktl, hmissinv, hw, hkv, hm⟩ := hinv
  dsimp only at httl' hload' hexp' hktl hmissinv hw hkv hm
  have hskip : kv.deleteExpiredIfNeed now = kv :=
    MemCache.deleteExpiredIfNeed_skip kv now (by rw [hexp']; exact hwm)
  by_cases hmem : k ∈ ktl
  · -- the key was already reserved earlier in this loop: the fresh entry is hit
    have hval : kv₁.hasValidEntry now k = false := hmissinv k hmem
    have hlook : alookup kv.kv k =
        some ⟨now + kv₁.ttl, w₀.storeV.length + idxOfK ktl k⟩ := by
      rw [hkv k, if_pos hmem]
    have hvalid : (⟨now + kv₁.ttl, w₀.storeV.length + idxOfK ktl k⟩ :
        MemCacheEntry Nat).isValid now = true := by
      simp only [MemCacheEntry.isValid, gt_iff_lt, decide_eq_true_eq]
      omega
    have hget : kv.get now k (some reserveLoader) (w, ktl) =
        .ok (kv, w₀.storeV.length + idxOfK ktl k, (w, ktl)) := by
      have h := MemCache.get_of_valid kv now k (some reserveLoader) (w, ktl) _
        (by rw [hskip]; exact hlook) hvalid rfl
      rw [hskip] at h
      exact h
    show Phase1Inv kv₁ w₀ now (done ++ [k])
      (match kv.get now k (some reserveLoader) (w, ktl) with
       | .ok (kv', pid, we) => (kv', we.1, we.2, aset m k pid)
       | .error _ => (kv, w, ktl, m))
    rw [hget]
    refine ⟨httl', hload', hexp', ?_, hmissinv, hw, hkv, ?_⟩
    · show ktl = missingKeys kv₁ now (done ++ [k])
      rw [missingKeys_append, if_pos (Or.inr (hktl ▸ hmem)), ← hktl]
    · intro k'
      show alookup (aset m k (w₀.storeV.length + idxOfK ktl k)) k' = _
      by_cases hk' : k' = k
      · subst hk'
        rw [alookup_aset_self, if_pos (by simp),
          pidSpec_of_invalid kv₁ w₀ now ktl k' hval]
      · rw [alookup_aset_ne _ _ _ _ hk', hm k']
        by_cases hd : k' ∈ done
        · rw [if_pos hd, if_pos (by simp [hd])]
        · rw [if_neg hd, if_neg (by simp [hd, hk'])]
  · by_cases hval : kv₁.hasValidEntry now k = true
    · -- a valid cached entry: hit, nothing changes but the local map
      obtain ⟨e, halo, hvalid⟩ :
          ∃ e, alookup kv₁.kv k = some e ∧ e.isValid now = true := by
        unfold MemCache.hasValidEntry at hval
        cases halo : alookup kv₁.kv k with
        | none => rw [halo] at hval; cases hval
        | some e => rw [halo] at hval; exact ⟨e, rfl, hval⟩
      have hlook : alookup kv.kv k = some e := by
        rw [hkv k, if_neg hmem, halo]
      have hget : kv.get now k (some reserveLoader) (w, ktl) =
          .ok (kv, e.value, (w, ktl)) := by
        have h := MemCache.get_of_valid kv now k (some reserveLoader) (w, ktl) _
          (by rw [hskip]; exact hlook) hvalid rfl
        rw [hskip] at h
        exact h
      show Phase1Inv kv₁ w₀ now (done ++ [k])
        (match kv.get now k (some reserveLoader) (w, ktl) with
         | .ok (kv', pid, we) => (kv', we.1, we.2, aset m k pid)
         | .error _ => (kv, w, ktl, m))
      rw [hget]
      refine ⟨httl', hload', hexp', ?_, hmissinv, hw, hkv, ?_⟩
      · show ktl = missingKeys kv₁ now (done ++ [k])
        rw [missingKeys_append, if_pos (Or.inl hval), ← hktl]
      · intro k'
        show alookup (aset m k e.value) k' = _
        by_cases hk' : k' = k
        · subst hk'
          rw [alookup_aset_self, if_pos (by simp),
            pidSpec_of_valid kv₁ w₀ now ktl k' e halo hvalid]
        · rw [alookup_aset_ne _ _ _ _ hk', hm k']
          by_cases hd : k' ∈ done
          · rw [if_pos hd, if_pos (by simp [hd])]
          · rw [if_neg hd, if_neg (by simp [hd, hk'])]
    · -- a missing key: reserve a fresh ControlPromise
      replace hval : kv₁.hasValidEntry now k = false := by
        simp [Bool.eq_false_iff, hval]
      have hmiss' : (kv.deleteExpiredIfNeed now).hasValidEntry now k = false := by
        rw [hskip]
        unfold MemCache.hasValidEntry
        rw [hkv k, if_neg hmem]
        unfold MemCache.hasValidEntry at hval
        exact hval
      have hget := MemCache.get_install kv now k reserveLoader (w, ktl) hmiss'
      rw [hskip] at hget
      have hwlen : w.storeV.length = w₀.storeV.length + ktl.length := by
        rw [hw]
        simp
      show Phase1Inv kv₁ w₀ now (done ++ [k])
        (match kv.get now k (some reserveLoader) (w, ktl) with
         | .ok (kv', pid, we) => (kv', we.1, we.2, aset m k pid)
         | .error _ => (kv, w, ktl, m))
      rw [hget]
      show Phase1Inv kv₁ w₀ now (done ++ [k])
        ({ kv with kv := aset kv.kv k ⟨now + kv.ttl, w.storeV.length⟩ },
         { w with storeV := w.storeV ++ [⟨.pending, true⟩] }, ktl ++ [k],
         aset m k w.storeV.length)
      have hktl' : ktl ++ [k] = missingKeys kv₁ now (done ++ [k]) := by
        rw [missingKeys_append, if_neg (by rw [← hktl]; simp [hval, hmem]), ← hktl]
      refine ⟨httl', hload', hexp', hktl', ?_, ?_, ?_, ?_⟩
      · intro k' hk'
        rcases List.mem_append.mp hk' with h | h
        · exact hmissinv k' h
        · rcases List.mem_singleton.mp h with rfl
          exact hval
      · show ({ w with storeV := w.storeV ++ [⟨.pending, true⟩] } : AggWorld K V E) =
          { w₀ with storeV :=
              w₀.storeV ++ List.replicate (ktl ++ [k]).length ⟨.pending, true⟩ }
        rw [hw]
        simp only [List.length_append, List.length_singleton]
        rw [← replicate_snoc, ← List.append_assoc]
      · intro k'
        show alookup (aset kv.kv k ⟨now + kv.ttl, w.storeV.length⟩) k' = _
        by_cases hk' : k' = k
        · subst hk'
          rw [alookup_aset_self, if_pos (by simp), httl', hwlen,
            idxOfK_append_new ktl k' hmem]
        · rw [alookup_aset_ne _ _ _ _ hk', hkv k']
          by_cases hx : k' ∈ ktl
          · rw [if_pos hx, if_pos (by simp [hx]),
              idxOfK_append_mem ktl [k] k' hx]
          · rw [if_neg hx, if_neg (by simp [hx, hk'])]
      · intro k'
        show alookup (aset m k w.storeV.length) k' = _
        by_cases hk' : k' = k
        · subst hk'
          rw [alookup_aset_self, if_pos (by simp),
            pidSpec_of_invalid kv₁ w₀ now (ktl ++ [k']) k' hval, hwlen,
            idxOfK_append_new ktl k' hmem]
        · rw [alookup_aset_ne _ _ _ _ hk', hm k']
          by_cases hd : k' ∈ done
          · rw [if_pos hd, if_pos (by simp [hd]),
              pidSpec_append kv₁ w₀ now ktl k' k
                (fun hh => by rw [hktl]; exact (mem_missingKeys_iff _ _ _ _).mpr ⟨hd, hh⟩)]
          · rw [if_neg hd, if_neg (by simp [hd, hk'])]

theorem MemCache.get_some_ok {K α W : Type} [DecidableEq K] (c : MemCache K α W)
    (now : Int) (key : K) (ld : K → W → α × W) (w : W) :
    ∃ t, c.get now key (some ld) w = .ok t := by
  by_cases hval : (c.deleteExpiredIfNeed now).hasValidEntry now key = true
  · obtain ⟨e, halo, hv⟩ :
        ∃ e, alookup (c.deleteExpiredIfNeed now).kv key = some e ∧ e.isValid now = true := by
      unfold MemCache.hasValidEntry at hval
      cases halo : alookup (c.deleteExpiredIfNeed now).kv key with
      | none => rw [halo] at hval; cases hval
      | some e => rw [halo] at hval; exact ⟨e, rfl, hval⟩
    exact ⟨_, MemCache.get_of_valid c now key (some ld) w e halo hv rfl⟩
  · have hf : (c.deleteExpiredIfNeed now).hasValidEntry now key = false := by
      simp [Bool.eq_false_iff, hval]
    exact ⟨_, MemCache.get_install c now key ld w hf⟩

theorem phase1_base {K V E : Type} [DecidableEq K] (kv₁ : MemCache K Nat (KvEff K V E))
    (w₀ : AggWorld K V E) (now : Int) :
    Phase1Inv kv₁ w₀ now [] (kv₁, w₀, [], []) := by
  refine ⟨rfl, rfl, rfl, rfl, ?_, ?_, ?_, ?_⟩
  · intro k hk
    cases hk
  · show w₀ = { w₀ with storeV := w₀.storeV ++ List.replicate ([] : List K).length _ }
    cases w₀
    simp
  · intro k
    show alookup kv₁.kv k = if k ∈ ([] : List K) then _ else alookup kv₁.kv k
    rw [if_neg (by simp)]
  · intro k
    show alookup ([] : List (K × Nat)) k = if k ∈ ([] : List K) then _ else none
    rw [if_neg (by simp)]
    rfl

theorem phase1_fold {K V E : Type} [DecidableEq K] (kv₁ : MemCache K Nat (KvEff K V E))
    (w₀ : AggWorld K V E) (now : Int)
    (httl : 0 < kv₁.ttl) (hwm : now < kv₁.expiredDeleteAt) :
    ∀ (keys done : List K) (acc : Phase1Acc K V E),
      Phase1Inv kv₁ w₀ now done acc →
      Phase1Inv kv₁ w₀ now (done ++ keys) (keys.foldl (getManyStep now) acc) := by
  intro keys
  induction keys with
  | nil =>
    intro done acc h
    simpa using h
  | cons k keys ih =>
    intro done acc h
    have h1 := phase1_step kv₁ w₀ now done acc k httl hwm h
    have h2 := ih (done ++ [k]) _ h1
    rw [List.append_assoc] at h2
    simpa using h2

theorem getManyPhase1_inv {K V E : Type} [DecidableEq K]
    (kv₀ : MemCache K Nat (KvEff K V E)) (w₀ : AggWorld K V E) (now : Int)
    (keys : List K) (httl : 0 < kv₀.ttl) (hne : keys ≠ []) :
    Phase1Inv (kv₀.deleteExpiredIfNeed now) w₀ now keys
      (getManyPhase1 kv₀ now keys w₀) := by
  have httl1 : 0 < (kv₀.deleteExpiredIfNeed now).ttl := by
    rw [MemCache.deleteExpiredIfNeed_ttl]
    exact httl
  have hwm : now < (kv₀.deleteExpiredIfNeed now).expiredDeleteAt :=
    MemCache.deleteExpiredIfNeed_wm kv₀ now httl
  cases keys with
  | nil => exact absurd rfl hne
  | cons k keys =>
    have hstep_eq : getManyStep now (kv₀, w₀, ([] : List K), ([] : List (K × Nat))) k
        = getManyStep now (kv₀.deleteExpiredIfNeed now, w₀, [], []) k := by
      obtain ⟨⟨kv', pid, we⟩, ht⟩ := MemCache.get_some_ok kv₀ now k reserveLoader (w₀, [])
      unfold getManyStep
      dsimp only
      rw [MemCache.get_sweep_congr kv₀ now k (some reserveLoader) (w₀, []) httl, ht]
    show Phase1Inv (kv₀.deleteExpiredIfNeed now) w₀ now (k :: keys)
      ((k :: keys).foldl (getManyStep now) (kv₀, w₀, [], []))
    rw [List.foldl_cons, hstep_eq, ← List.foldl_cons]
    have h := phase1_fold (kv₀.deleteExpiredIfNeed now) w₀ now httl1 hwm (k :: keys) []
      (kv₀.deleteExpiredIfNeed now, w₀, [], [])
      (phase1_base (kv₀.deleteExpiredIfNeed now) w₀ now)
    simpa using h

/-! ## Lemmas: the resolution and rejection loops -/

theorem listGetAppendLength {A : Type} :
    ∀ (pre : List A) (x : A) (post : List A),
      (pre ++ x :: post).get? pre.length = some x := by
  intro pre
  induction pre with
  | nil => intro x post; rfl
  | cons a rest ih => intro x post; exact ih x post

theorem resolveLoop_all {K V E : Type} [DecidableEq K] (getKey : V → K)
    (m : List (K × Nat)) :
    ∀ (vs : List V) (ms : List K) (pre : PromStore V (AggError K E)),
      vs.map getKey = ms →
      (∀ (i : Nat) (h : i < ms.length),
        alookup m (ms.get ⟨i, h⟩) = some (pre.length + i)) →
      resolveLoop getKey m (pre ++ List.replicate ms.length ⟨.pending, true⟩) vs
        = (pre ++ vs.map (fun v => ⟨.fulfilled v, true⟩), none) := by
  intro vs
  induction vs with
  | nil =>
    intro ms pre hmap _
    have hms : ms = [] := by simpa using hmap.symm
    subst hms
    simp [resolveLoop]
  | cons v vs ih =>
    intro ms pre hmap hpid
    obtain ⟨k0, ms', rfl⟩ : ∃ k0 ms', ms = k0 :: ms' := by
      cases ms
      · simp at hmap
      · exact ⟨_, _, rfl⟩
    injection hmap with hk0 htail
    have hpid0 : alookup m (getKey v) = some pre.length := by
      have h := hpid 0 (by simp)
      rw [hk0]
      simpa using h
    show resolveLoop getKey m
        (pre ++ (⟨.pending, true⟩ : Prom V (AggError K E)) ::
          List.replicate ms'.length ⟨.pending, true⟩) (v :: vs) = _
    unfold resolveLoop
    rw [hpid0]
    dsimp only
    rw [listGetAppendLength]
    show resolveLoop getKey m
        (storeResolve
          (pre ++ (⟨.pending, true⟩ : Prom V (AggError K E)) ::
            List.replicate ms'.length ⟨.pending, true⟩) pre.length v) vs = _
    have hres : storeResolve
        (pre ++ (⟨.pending, true⟩ : Prom V (AggError K E)) ::
          List.replicate ms'.length ⟨.pending, true⟩) pre.length v
        = (pre ++ [(⟨.fulfilled v, true⟩ : Prom V (AggError K E))])
            ++ List.replicate ms'.length ⟨.pending, true⟩ := by
      have h := storeResolve_append pre
        ((⟨.pending, true⟩ : Prom V (AggError K E)) ::
          List.replicate ms'.length ⟨.pending, true⟩) 0 v
      rw [Nat.add_zero] at h
      rw [h]
      show pre ++ (⟨.fulfilled v, true⟩ : Prom V (AggError K E)) ::
        List.replicate ms'.length ⟨.pending, true⟩ = _
      simp
    rw [hres]
    have hpid' : ∀ (i : Nat) (h : i < ms'.length),
        alookup m (ms'.get ⟨i, h⟩) =
          some ((pre ++ [(⟨.fulfilled v, true⟩ : Prom V (AggError K E))]).length + i) := by
      intro i h
      have hh := hpid (i + 1) (by simpa using Nat.succ_lt_succ h)
      simp only [List.length_append, List.length_singleton]
      show alookup m ((k0 :: ms').get ⟨i + 1, by simpa using Nat.succ_lt_succ h⟩) =
        some (pre.length + 1 + i)
      rw [hh]
      congr 1
      omega
    rw [ih ms' (pre ++ [(⟨.fulfilled v, true⟩ : Prom V (AggError K E))]) htail hpid']
    simp

theorem resolveLoop_offender {K V E : Type} [DecidableEq K] (getKey : V → K)
    (m : List (K × Nat)) :
    ∀ (gvs : List V) (ms : List K) (pre : PromStore V (AggError K E)) (off : V)
      (rest : List V) (mrest : Nat),
      gvs.map getKey = ms →
      (∀ (i : Nat) (h : i < ms.length),
        alookup m (ms.get ⟨i, h⟩) = some (pre.length + i)) →
      alookup m (getKey off) = none →
      resolveLoop getKey m
          (pre ++ List.replicate (ms.length + mrest) ⟨.pending, true⟩) (gvs ++ off :: rest)
        = (pre ++ gvs.map (fun v => ⟨.fulfilled v, true⟩)
             ++ List.replicate mrest ⟨.pending, true⟩,
           some (.wrongLoadedKey (getKey off))) := by
  intro gvs
  induction gvs with
  | nil =>
    intro ms pre off rest mrest hmap _ hoff
    have hms : ms = [] := by simpa using hmap.symm
    subst hms
    show resolveLoop getKey m (pre ++ List.replicate (0 + mrest) ⟨.pending, true⟩)
      (off :: rest) = _
    unfold resolveLoop
    rw [hoff]
    dsimp only
    rw [Nat.zero_add]
    simp
  | cons v gvs ih =>
    intro ms pre off rest mrest hmap hpid hoff
    obtain ⟨k0, ms', rfl⟩ : ∃ k0 ms', ms = k0 :: ms' := by
      cases ms
      · simp at hmap
      · exact ⟨_, _, rfl⟩
    injection hmap with hk0 htail
    have hpid0 : alookup m (getKey v) = some pre.length := by
      have h := hpid 0 (by simp)
      rw [hk0]
      simpa using h
    have hlen : (k0 :: ms').length + mrest = (ms'.length + mrest) + 1 := by
      simp [Nat.succ_add]
    rw [hlen]
    show resolveLoop getKey m
        (pre ++ (⟨.pending, true⟩ : Prom V (AggError K E)) ::
          List.replicate (ms'.length + mrest) ⟨.pending, true⟩)
        (v :: (gvs ++ off :: rest)) = _
    unfold resolveLoop
    rw [hpid0]
    dsimp only
    rw [listGetAppendLength]
    show resolveLoop getKey m
        (storeResolve
          (pre ++ (⟨.pending, true⟩ : Prom V (AggError K E)) ::
            List.replicate (ms'.length + mrest) ⟨.pending, true⟩) pre.length v)
        (gvs ++ off :: rest) = _
    have hres : storeResolve
        (pre ++ (⟨.pending, true⟩ : Prom V (AggError K E)) ::
          List.replicate (ms'.length + mrest) ⟨.pending, true⟩) pre.length v
        = (pre ++ [(⟨.fulfilled v, true⟩ : Prom V (AggError K E))])
            ++ List.replicate (ms'.length + mrest) ⟨.pending, true⟩ := by
      have h := storeResolve_append pre
        ((⟨.pending, true⟩ : Prom V (AggError K E)) ::
          List.replicate (ms'.length + mrest) ⟨.pending, true⟩) 0 v
      rw [Nat.add_zero] at h
      rw [h]
      show pre ++ (⟨.fulfilled v, true⟩ : Prom V (AggError K E)) ::
        List.replicate (ms'.length + mrest) ⟨.pending, true⟩ = _
      simp
    rw [hres]
    have hpid' : ∀ (i : Nat) (h : i < ms'.length),
        alookup m (ms'.get ⟨i, h⟩) =
          some ((pre ++ [(⟨.fulfilled v, true⟩ : Prom V (AggError K E))]).length + i) := by
      intro i h
      have hh := hpid (i + 1) (by simpa using Nat.succ_lt_succ h)
      simp only [List.length_append, List.length_singleton]
      show alookup m ((k0 :: ms').get ⟨i + 1, by simpa using Nat.succ_lt_succ h⟩) =
        some (pre.length + 1 + i)
      rw [hh]
      congr 1
      omega
    rw [ih ms' (pre ++ [(⟨.fulfilled v, true⟩ : Prom V (AggError K E))]) off rest mrest
      htail hpid' hoff]
    simp

theorem rejectAll_zone {K V E : Type} [DecidableEq K] (err : AggError K E)
    (m : List (K × Nat)) :
    ∀ (ks : List K) (pre zone : PromStore V (AggError K E)),
      zone.length = ks.length →
      (∀ (i : Nat) (h : i < ks.length),
        alookup m (ks.get ⟨i, h⟩) = some (pre.length + i)) →
      rejectAll m err (pre ++ zone) ks
        = pre ++ zone.map
            (fun p => if p.settlement.isPending then ⟨.rejected err, p.isControl⟩ else p) := by
  intro ks
  induction ks with
  | nil =>
    intro pre zone hlen _
    have hz : zone = [] := List.length_eq_zero.mp hlen
    subst hz
    simp [rejectAll]
  | cons k ks ih =>
    intro pre zone hlen hpid
    obtain ⟨z, zone', rfl⟩ : ∃ z zone', zone = z :: zone' := by
      cases zone
      · simp at hlen
      · exact ⟨_, _, rfl⟩
    have hpid0 : alookup m k = some pre.length := by
      have h := hpid 0 (by simp)
      simpa using h
    show rejectAll m err
        (match alookup m k with
         | some pid => storeReject (pre ++ z :: zone') pid err
         | none => pre ++ z :: zone') ks = _
    rw [hpid0]
    show rejectAll m err (storeReject (pre ++ z :: zone') pre.length err) ks = _
    have hrej : storeReject (pre ++ z :: zone') pre.length err
        = (pre ++ [if z.settlement.isPending then
            (⟨.rejected err, z.isControl⟩ : Prom V (AggError K E)) else z]) ++ zone' := by
      have h := storeReject_append pre (z :: zone') 0 err
      rw [Nat.add_zero] at h
      rw [h]
      show pre ++ (if z.settlement.isPending then
          ({ z with settlement := .rejected err } : Prom V (AggError K E)) else z) :: zone' = _
      by_cases hp : z.settlement.isPending
      · simp [hp]
      · simp [hp]
    rw [hrej]
    have hpid' : ∀ (i : Nat) (h : i < ks.length),
        alookup m (ks.get ⟨i, h⟩) =
          some ((pre ++ [if z.settlement.isPending then
            (⟨.rejected err, z.isControl⟩ : Prom V (AggError K E)) else z]).length + i) := by
      intro i h
      have hh := hpid (i + 1) (by simpa using Nat.succ_lt_succ h)
      simp only [List.length_append, List.length_singleton]
      show alookup m ((k :: ks).get ⟨i + 1, by simpa using Nat.succ_lt_succ h⟩) =
        some (pre.length + 1 + i)
      rw [hh]
      congr 1
      omega
    have hlen' : zone'.length = ks.length := by
      simpa using hlen
    rw [ih (pre ++ [if z.settlement.isPending then
      (⟨.rejected err, z.isControl⟩ : Prom V (AggError K E)) else z]) zone' hlen' hpid']
    simp

/-! ## Lemmas: assembling getMany -/

theorem getMany_phase1_shape {K CMK V E : Type} [DecidableEq K]
    (agg : MemAggregateCache K CMK V E) (now : Int) (keys : List K)
    (w : AggWorld K V E) (httl : 0 < agg.kv.ttl) (hne : keys ≠ []) :
    ∃ kv' mp,
      getManyPhase1 agg.kv now keys w =
        (kv',
         { w with storeV := w.storeV ++ List.replicate
                      (missingKeys (agg.kv.deleteExpiredIfNeed now) now keys).length
                      ⟨.pending, true⟩ },
         missingKeys (agg.kv.deleteExpiredIfNeed now) now keys, mp)
      ∧ (∀ k, alookup mp k =
          if k ∈ keys
          then some (pidSpec (agg.kv.deleteExpiredIfNeed now) w now
                      (missingKeys (agg.kv.deleteExpiredIfNeed now) now keys) k)
          else none)
      ∧ (∀ k, alookup kv'.kv k =
          if k ∈ missingKeys (agg.kv.deleteExpiredIfNeed now) now keys
          then some ⟨now + (agg.kv.deleteExpiredIfNeed now).ttl,
                     w.storeV.length +
                       idxOfK (missingKeys (agg.kv.deleteExpiredIfNeed now) now keys) k⟩
          else alookup (agg.kv.deleteExpiredIfNeed now).kv k)
      ∧ kv'.ttl = (agg.kv.deleteExpiredIfNeed now).ttl
      ∧ kv'.expiredDeleteAt = (agg.kv.deleteExpiredIfNeed now).expiredDeleteAt
      ∧ kv'.load = (agg.kv.deleteExpiredIfNeed now).load := by
  have hinv := getManyPhase1_inv agg.kv w now keys httl hne
  rcases hacc : getManyPhase1 agg.kv now keys w with ⟨kv', w1, ktl, mp⟩
  rw [hacc] at hinv
  obtain ⟨httl', hload', hexp', hktl, _hmissinv, hw1, hkv, hm⟩ := hinv
  dsimp only at httl' hload' hexp' hktl hw1 hkv hm
  subst hktl
  subst hw1
  exact ⟨kv', mp, rfl, hm, hkv, httl', hexp', hload'⟩

theorem phase1_map_pids {K CMK V E : Type} [DecidableEq K]
    (agg : MemAggregateCache K CMK V E) (now : Int) (keys : List K)
    (w : AggWorld K V E) (mp : List (K × Nat))
    (hm : ∀ k, alookup mp k =
        if k ∈ keys
        then some (pidSpec (agg.kv.deleteExpiredIfNeed now) w now
                    (missingKeys (agg.kv.deleteExpiredIfNeed now) now keys) k)
        else none) :
    ∀ (i : Nat) (h : i < (missingKeys (agg.kv.deleteExpiredIfNeed now) now keys).length),
      alookup mp ((missingKeys (agg.kv.deleteExpiredIfNeed now) now keys).get ⟨i, h⟩) =
        some (w.storeV.length + i) := by
  intro i h
  have hmem : (missingKeys (agg.kv.deleteExpiredIfNeed now) now keys).get ⟨i, h⟩
      ∈ missingKeys (agg.kv.deleteExpiredIfNeed now) now keys := List.get_mem _ _ _
  have hks := (mem_missingKeys_iff _ _ _ _).mp hmem
  rw [hm _, if_pos hks.1, pidSpec_of_invalid _ _ _ _ _ hks.2,
    idxOfK_get_nodup _ (missingKeys_nodup _ _ _) i h]

theorem map_eq_find_get {V K : Type} [DecidableEq K] (g : V → K) :
    ∀ (vs : List V) (ms : List K), vs.map g = ms → ∀ k, k ∈ ms →
      ∃ (v : V), vs.find? (fun v => decide (g v = k)) = some v
        ∧ vs.get? (idxOfK ms k) = some v := by
  intro vs
  induction vs with
  | nil =>
    intro ms hmap k hk
    have : ms = [] := by simpa using hmap.symm
    subst this
    cases hk
  | cons v vs ih =>
    intro ms hmap k hk
    obtain ⟨k0, ms', rfl⟩ : ∃ k0 ms', ms = k0 :: ms' := by
      cases ms
      · simp at hmap
      · exact ⟨_, _, rfl⟩
    injection hmap with hk0 htail
    by_cases hvk : g v = k
    · refine ⟨v, ?_, ?_⟩
      · rw [List.find?_cons_of_pos]
        simp [hvk]
      · have : k0 = k := by rw [← hk0, hvk]
        subst this
        rw [show idxOfK (k0 :: ms') k0 = 0 from by simp [idxOfK]]
        rfl
    · have hk0k : ¬ k0 = k := by rw [← hk0]; exact hvk
      have hk' : k ∈ ms' := by
        rcases List.mem_cons.mp hk with rfl | hk'
        · exact absurd rfl hk0k
        · exact hk'
      obtain ⟨u, hfind, hget⟩ := ih ms' htail k hk'
      refine ⟨u, ?_, ?_⟩
      · rw [List.find?_cons_of_neg]
        · exact hfind
        · simp [hvk]
      · rw [show idxOfK (k0 :: ms') k = idxOfK ms' k + 1 from by simp [idxOfK, hk0k]]
        exact hget

theorem getMany_ok {K CMK V E : Type} [DecidableEq K]
    (agg : MemAggregateCache K CMK V E) (now : Int) (keys : List K)
    (w : AggWorld K V E) (vs : List V)
    (httl : 0 < agg.kv.ttl)
    (hmiss : missingKeys (agg.kv.deleteExpiredIfNeed now) now keys ≠ [])
    (hload : agg.load (missingKeys (agg.kv.deleteExpiredIfNeed now) now keys) = .ok vs)
    (hconf : vs.map agg.getKey = missingKeys (agg.kv.deleteExpiredIfNeed now) now keys) :
    ∃ kv' mp,
      agg.getMany now keys w =
        ({ agg with kv := kv' },
         { w with storeV := w.storeV ++ vs.map (fun v => ⟨.fulfilled v, true⟩),
                  batchLog := w.batchLog ++
                      [missingKeys (agg.kv.deleteExpiredIfNeed now) now keys] },
         .ok (keys.map (fun k => (alookup mp k).getD 0)))
      ∧ (∀ k, alookup mp k =
          if k ∈ keys
          then some (pidSpec (agg.kv.deleteExpiredIfNeed now) w now
                      (missingKeys (agg.kv.deleteExpiredIfNeed now) now keys) k)
          else none)
      ∧ (∀ k, alookup kv'.kv k =
          if k ∈ missingKeys (agg.kv.deleteExpiredIfNeed now) now keys
          then some ⟨now + (agg.kv.deleteExpiredIfNeed now).ttl,
                     w.storeV.length +
                       idxOfK (missingKeys (agg.kv.deleteExpiredIfNeed now) now keys) k⟩
          else alookup (agg.kv.deleteExpiredIfNeed now).kv k)
      ∧ kv'.ttl = (agg.kv.deleteExpiredIfNeed now).ttl
      ∧ kv'.expiredDeleteAt = (agg.kv.deleteExpiredIfNeed now).expiredDeleteAt
      ∧ kv'.load = (agg.kv.deleteExpiredIfNeed now).load := by
  have hne : keys ≠ [] := by
    intro h
    subst h
    exact hmiss rfl
  obtain ⟨kv', mp, hacc, hm, hkv, httl', hexp', hkvload⟩ :=
    getMany_phase1_shape agg now keys w httl hne
  have hpids := phase1_map_pids agg now keys w mp hm
  have hres := resolveLoop_all agg.getKey mp vs
    (missingKeys (agg.kv.deleteExpiredIfNeed now) now keys) w.storeV hconf hpids
  have hempty : (missingKeys (agg.kv.deleteExpiredIfNeed now) now keys).isEmpty = false := by
    cases h : missingKeys (agg.kv.deleteExpiredIfNeed now) now keys with
    | nil => exact absurd h hmiss
    | cons a l => rfl
  refine ⟨kv', mp, ?_, hm, hkv, httl', hexp', hkvload⟩
  unfold MemAggregateCache.getMany
  rw [hacc]
  dsimp only
  rw [if_neg (by rw [hempty]; exact Bool.false_ne_true), hload]
  dsimp only
  rw [hres]

theorem getMany_err {K CMK V E : Type} [DecidableEq K]
    (agg : MemAggregateCache K CMK V E) (now : Int) (keys : List K)
    (w : AggWorld K V E) (e : E)
    (httl : 0 < agg.kv.ttl)
    (hmiss : missingKeys (agg.kv.deleteExpiredIfNeed now) now keys ≠ [])
    (hload : agg.load (missingKeys (agg.kv.deleteExpiredIfNeed now) now keys) = .error e) :
    ∃ kv' mp,
      agg.getMany now keys w =
        ({ agg with kv := kv' },
         { w with storeV := (w.storeV ++ List.replicate
                      (missingKeys (agg.kv.deleteExpiredIfNeed now) now keys).length
                      ⟨.rejected (.upstream e), true⟩),
                  batchLog := (w.batchLog ++
                      [missingKeys (agg.kv.deleteExpiredIfNeed now) now keys]) },
         .error (.upstream e))
      ∧ (∀ k, alookup mp k =
          if k ∈ keys
          then some (pidSpec (agg.kv.deleteExpiredIfNeed now) w now
                      (missingKeys (agg.kv.deleteExpiredIfNeed now) now keys) k)
          else none)
      ∧ (∀ k, alookup kv'.kv k =
          if k ∈ missingKeys (agg.kv.deleteExpiredIfNeed now) now keys
          then some ⟨now + (agg.kv.deleteExpiredIfNeed now).ttl,
                     w.storeV.length +
                       idxOfK (missingKeys (agg.kv.deleteExpiredIfNeed now) now keys) k⟩
          else alookup (agg.kv.deleteExpiredIfNeed now).kv k)
      ∧ kv'.ttl = (agg.kv.deleteExpiredIfNeed now).ttl
      ∧ kv'.expiredDeleteAt = (agg.kv.deleteExpiredIfNeed now).expiredDeleteAt := by
  have hne : keys ≠ [] := by
    intro h
    subst h
    exact hmiss rfl
  obtain ⟨kv', mp, hacc, hm, hkv, httl', hexp', _hkvload⟩ :=
    getMany_phase1_shape agg now keys w httl hne
  have hpids := phase1_map_pids agg now keys w mp hm
  have hrej := rejectAll_zone (V := V) (.upstream e) mp
    (missingKeys (agg.kv.deleteExpiredIfNeed now) now keys) w.storeV
    (List.replicate (missingKeys (agg.kv.deleteExpiredIfNeed now) now keys).length
      ⟨.pending, true⟩)
    (by simp) hpids
  have hempty : (missingKeys (agg.kv.deleteExpiredIfNeed now) now keys).isEmpty = false := by
    cases h : missingKeys (agg.kv.deleteExpiredIfNeed now) now keys with
    | nil => exact absurd h hmiss
    | cons a l => rfl
  refine ⟨kv', mp, ?_, hm, hkv, httl', hexp'⟩
  unfold MemAggregateCache.getMany
  rw [hacc]
  dsimp only
  rw [if_neg (by rw [hempty]; exact Bool.false_ne_true), hload]
  dsimp only
  rw [hrej]
  simp [Settlement.isPending]

theorem get_take_aux {A : Type} :
    ∀ (l : List A) (n i : Nat) (h1 : i < (l.take n).length) (h2 : i < l.length),
      (l.take n).get ⟨i, h1⟩ = l.get ⟨i, h2⟩ := by
  intro l
  induction l with
  | nil => intro n i h1 h2; cases h2
  | cons a l ih =>
    intro n i h1 h2
    cases n with
    | zero => simp at h1
    | succ n =>
      cases i with
      | zero => rfl
      | succ j => exact ih n j (by simpa using h1) (by simpa using h2)

theorem getMany_offender {K CMK V E : Type} [DecidableEq K]
    (agg : MemAggregateCache K CMK V E) (now : Int) (keys : List K)
    (w : AggWorld K V E) (gvs : List V) (off : V) (rest : List V)
    (httl : 0 < agg.kv.ttl)
    (hmiss : missingKeys (agg.kv.deleteExpiredIfNeed now) now keys ≠ [])
    (hload : agg.load (missingKeys (agg.kv.deleteExpiredIfNeed now) now keys)
      = .ok (gvs ++ off :: rest))
    (hpre : gvs.map agg.getKey =
      (missingKeys (agg.kv.deleteExpiredIfNeed now) now keys).take gvs.length)
    (hoff : agg.getKey off ∉ keys) :
    ∃ kv' mp,
      agg.getMany now keys w =
        ({ agg with kv := kv' },
         { w with storeV := ((w.storeV ++ gvs.map (fun v => ⟨.fulfilled v, true⟩))
                      ++ List.replicate
                        ((missingKeys (agg.kv.deleteExpiredIfNeed now) now keys).length
                          - gvs.length)
                        ⟨.rejected (.wrongLoadedKey (agg.getKey off)), true⟩),
                  batchLog := (w.batchLog ++
                      [missingKeys (agg.kv.deleteExpiredIfNeed now) now keys]) },
         .error (.wrongLoadedKey (agg.getKey off)))
      ∧ (∀ k, alookup mp k =
          if k ∈ keys
          then some (pidSpec (agg.kv.deleteExpiredIfNeed now) w now
                      (missingKeys (agg.kv.deleteExpiredIfNeed now) now keys) k)
          else none)
      ∧ (∀ k, alookup kv'.kv k =
          if k ∈ missingKeys (agg.kv.deleteExpiredIfNeed now) now keys
          then some ⟨now + (agg.kv.deleteExpiredIfNeed now).ttl,
                     w.storeV.length +
                       idxOfK (missingKeys (agg.kv.deleteExpiredIfNeed now) now keys) k⟩
          else alookup (agg.kv.deleteExpiredIfNeed now).kv k)
      ∧ gvs.length ≤ (missingKeys (agg.kv.deleteExpiredIfNeed now) now keys).length
      ∧ kv'.ttl = (agg.kv.deleteExpiredIfNeed now).ttl
      ∧ kv'.expiredDeleteAt = (agg.kv.deleteExpiredIfNeed now).expiredDeleteAt := by
  have hne : keys ≠ [] := by
    intro h
    subst h
    exact hmiss rfl
  obtain ⟨kv', mp, hacc, hm, hkv, httl', hexp', _hkvload⟩ :=
    getMany_phase1_shape agg now keys w httl hne
  have hpids := phase1_map_pids agg now keys w mp hm
  have htle : gvs.length ≤
      (missingKeys (agg.kv.deleteExpiredIfNeed now) now keys).length := by
    have h := congrArg List.length hpre
    simp only [List.length_map, List.length_take] at h
    omega
  have htakelen : ((missingKeys (agg.kv.deleteExpiredIfNeed now) now keys).take
      gvs.length).length = gvs.length := by
    simp [List.length_take]
    omega
  have hpids1 : ∀ (i : Nat)
      (h : i < ((missingKeys (agg.kv.deleteExpiredIfNeed now) now keys).take
        gvs.length).length),
      alookup mp (((missingKeys (agg.kv.deleteExpiredIfNeed now) now keys).take
          gvs.length).get ⟨i, h⟩) = some (w.storeV.length + i) := by
    intro i h
    have h2 : i < (missingKeys (agg.kv.deleteExpiredIfNeed now) now keys).length := by
      rw [htakelen] at h
      omega
    rw [get_take_aux _ _ _ h h2]
    exact hpids i h2
  have hoffm : alookup mp (agg.getKey off) = none := by
    rw [hm _, if_neg hoff]
  have hsplitlen : (missingKeys (agg.kv.deleteExpiredIfNeed now) now keys).length =
      ((missingKeys (agg.kv.deleteExpiredIfNeed now) now keys).take gvs.length).length
        + ((missingKeys (agg.kv.deleteExpiredIfNeed now) now keys).length - gvs.length) := by
    rw [htakelen]
    omega
  have hres := resolveLoop_offender agg.getKey mp gvs
    ((missingKeys (agg.kv.deleteExpiredIfNeed now) now keys).take gvs.length)
    w.storeV off rest
    ((missingKeys (agg.kv.deleteExpiredIfNeed now) now keys).length - gvs.length)
    hpre hpids1 hoffm
  have hzonelen : (gvs.map (fun v => (⟨.fulfilled v, true⟩ : Prom V (AggError K E)))
      ++ List.replicate
        ((missingKeys (agg.kv.deleteExpiredIfNeed now) now keys).length - gvs.length)
        (⟨.pending, true⟩ : Prom V (AggError K E))).length =
      (missingKeys (agg.kv.deleteExpiredIfNeed now) now keys).length := by
    simp
    omega
  have hrej := rejectAll_zone (V := V) (.wrongLoadedKey (agg.getKey off)) mp
    (missingKeys (agg.kv.deleteExpiredIfNeed now) now keys) w.storeV
    (gvs.map (fun v => (⟨.fulfilled v, true⟩ : Prom V (AggError K E)))
      ++ List.replicate
        ((missingKeys (agg.kv.deleteExpiredIfNeed now) now keys).length - gvs.length)
        (⟨.pending, true⟩ : Prom V (AggError K E)))
    hzonelen hpids
  have hempty : (missingKeys (agg.kv.deleteExpiredIfNeed now) now keys).isEmpty = false := by
    cases h : missingKeys (agg.kv.deleteExpiredIfNeed now) now keys with
    | nil => exact absurd h hmiss
    | cons a l => rfl
  refine ⟨kv', mp, ?_, hm, hkv, htle, httl', hexp'⟩
  unfold MemAggregateCache.getMany
  rw [hacc]
  dsimp only
  rw [if_neg (by rw [hempty]; exact Bool.false_ne_true), hload]
  dsimp only
  rw [show (missingKeys (agg.kv.deleteExpiredIfNeed now) now keys).length =
      ((missingKeys (agg.kv.deleteExpiredIfNeed now) now keys).take gvs.length).length
        + ((missingKeys (agg.kv.deleteExpiredIfNeed now) now keys).length - gvs.length)
    from hsplitlen, hres]
  dsimp only
  rw [List.append_assoc, hrej]
  have hminlen : gvs.length ⊓
      (missingKeys (agg.kv.deleteExpiredIfNeed now) now keys).length = gvs.length :=
    min_eq_left htle
  have harith : gvs.length +
        ((missingKeys (agg.kv.deleteExpiredIfNeed now) now keys).length - gvs.length)
        - gvs.length =
      (missingKeys (agg.kv.deleteExpiredIfNeed now) now keys).length - gvs.length := by
    omega
  simp [Function.comp, Settlement.isPending, hminlen, harith]

/-! ## Small list-index helpers -/

theorem listGetAppendPlus {A : Type} :
    ∀ (l₁ l₂ : List A) (i : Nat), (l₁ ++ l₂).get? (l₁.length + i) = l₂.get? i := by
  intro l₁
  induction l₁ with
  | nil => intro l₂ i; simp
  | cons a rest ih =>
    intro l₂ i
    have h : (a :: rest).length + i = (rest.length + i) + 1 := by
      simp [Nat.succ_add]
    rw [h]
    exact ih l₂ i

theorem listGetAppendLt {A : Type} :
    ∀ (l₁ l₂ : List A) (p : Nat), p < l₁.length → (l₁ ++ l₂).get? p = l₁.get? p := by
  intro l₁
  induction l₁ with
  | nil => intro l₂ p h; cases h
  | cons a rest ih =>
    intro l₂ p h
    cases p with
    | zero => rfl
    | succ q => exact ih l₂ q (Nat.lt_of_succ_lt_succ h)

theorem listGetReplicate {A : Type} (a : A) :
    ∀ (n i : Nat), i < n → (List.replicate n a).get? i = some a := by
  intro n
  induction n with
  | zero => intro i h; cases h
  | succ m ih =>
    intro i h
    cases i with
    | zero => rfl
    | succ j => exact ih j (Nat.lt_of_succ_lt_succ h)

theorem listGetMap {A B : Type} (f : A → B) :
    ∀ (l : List A) (i : Nat), (l.map f).get? i = (l.get? i).map f := by
  intro l
  induction l with
  | nil => intro i; cases i <;> rfl
  | cons a rest ih =>
    intro i
    cases i with
    | zero => rfl
    | succ j => exact ih j

theorem idxOfK_lt {K : Type} [DecidableEq K] :
    ∀ (l : List K) (k : K), k ∈ l → idxOfK l k < l.length := by
  intro l
  induction l with
  | nil => intro k h; cases h
  | cons x rest ih =>
    intro k h
    by_cases hx : x = k
    · simp [idxOfK, hx]
    · rcases List.mem_cons.mp h with rfl | h
      · exact absurd rfl hx
      · simp only [idxOfK, if_neg hx, List.length_cons]
        exact Nat.succ_lt_succ (ih k h)

theorem hasValidEntry_empty {K α W : Type} [DecidableEq K] (c : MemCache K α W)
    (h : c.kv = []) (now : Int) (k : K) :
    (c.deleteExpiredIfNeed now).hasValidEntry now k = false := by
  have hkv : (c.deleteExpiredIfNeed now).kv = [] := by
    unfold MemCache.deleteExpiredIfNeed
    split
    · exact h
    · show (c.deleteExpired now).kv = []
      unfold MemCache.deleteExpired
      rw [h]
      rfl
  unfold MemCache.hasValidEntry
  rw [hkv]
  rfl

/-- Claim C4, confirmed.  getMany deduplication: for every input key list
(possibly containing duplicates), every cache state with a positive ttl and
every conformant batch loader, `getMany` returns one promise id per input
position computed by a single per-key assignment — so the output has the
input's length and repeated keys repeat the same promise (hence the same
value) at their input positions — and, when keys were missing, the batch
loader is invoked exactly once, with exactly the deduplicated list of missing
keys (`batchLog` grows by that one entry); each missing key's promise is
fulfilled with the loader's value for that key, previously stored promises
are untouched, and keys served from cache reuse their cached entry's
promise. -/
theorem claimC4_getMany_dedup {K CMK V E : Type} [DecidableEq K]
    (agg : MemAggregateCache K CMK V E) (now : Int) (keys : List K)
    (w : AggWorld K V E) (vs : List V)
    (httl : 0 < agg.kv.ttl)
    (hmiss : missingKeys (agg.kv.deleteExpiredIfNeed now) now keys ≠ [])
    (hload : agg.load (missingKeys (agg.kv.deleteExpiredIfNeed now) now keys) = .ok vs)
    (hconf : vs.map agg.getKey = missingKeys (agg.kv.deleteExpiredIfNeed now) now keys) :
    ∃ agg' w' assign,
      agg.getMany now keys w = (agg', w', .ok (keys.map assign))
      ∧ w'.batchLog = w.batchLog ++ [missingKeys (agg.kv.deleteExpiredIfNeed now) now keys]
      ∧ w'.storeKs = w.storeKs
      ∧ (∀ p, p < w.storeV.length → w'.storeV.get? p = w.storeV.get? p)
      ∧ (∀ k, k ∈ missingKeys (agg.kv.deleteExpiredIfNeed now) now keys →
          ∃ v, vs.find? (fun v => decide (agg.getKey v = k)) = some v
            ∧ w'.storeV.get? (assign k) = some ⟨.fulfilled v, true⟩)
      ∧ (∀ k, k ∈ keys → k ∉ missingKeys (agg.kv.deleteExpiredIfNeed now) now keys →
          ∃ e, alookup (agg.kv.deleteExpiredIfNeed now).kv k = some e
            ∧ e.isValid now = true ∧ assign k = e.value) := by
  obtain ⟨kv', mp, heq, hm, _hkv, _httl', _hexp', _hload'⟩ :=
    getMany_ok agg now keys w vs httl hmiss hload hconf
  refine ⟨_, _, (fun k => (alookup mp k).getD 0), heq, rfl, rfl, ?_, ?_, ?_⟩
  · intro p hp
    dsimp only
    cases hx : w.storeV.get? p with
    | none =>
      exfalso
      have := List.get?_eq_none.mp hx
      omega
    | some x =>
      exact listGetAppendOfSome _ _ _ _ hx
  · intro k hk
    have hks := (mem_missingKeys_iff _ _ _ _).mp hk
    obtain ⟨v, hfind, hget⟩ := map_eq_find_get agg.getKey vs
      (missingKeys (agg.kv.deleteExpiredIfNeed now) now keys) hconf k hk
    refine ⟨v, hfind, ?_⟩
    have hassign : (alookup mp k).getD 0 =
        w.storeV.length + idxOfK (missingKeys (agg.kv.deleteExpiredIfNeed now) now keys) k := by
      rw [hm k, if_pos hks.1, pidSpec_of_invalid _ _ _ _ _ hks.2]
      rfl
    show ((w.storeV ++ vs.map (fun v => (⟨.fulfilled v, true⟩ : Prom V (AggError K E)))).get?
        ((alookup mp k).getD 0)) = some ⟨.fulfilled v, true⟩
    rw [hassign, listGetAppendPlus, listGetMap, hget]
    rfl
  · intro k hk hnm
    have hval : (agg.kv.deleteExpiredIfNeed now).hasValidEntry now k = true := by
      rcases Bool.eq_false_or_eq_true
          ((agg.kv.deleteExpiredIfNeed now).hasValidEntry now k) with hb | hb
      · exact hb
      · exact absurd ((mem_missingKeys_iff _ _ _ _).mpr ⟨hk, hb⟩) hnm
    obtain ⟨e, halo, hv⟩ :
        ∃ e, alookup (agg.kv.deleteExpiredIfNeed now).kv k = some e
          ∧ e.isValid now = true := by
      unfold MemCache.hasValidEntry at hval
      cases halo : alookup (agg.kv.deleteExpiredIfNeed now).kv k with
      | none => rw [halo] at hval; cases hval
      | some e => rw [halo] at hval; exact ⟨e, rfl, hval⟩
    refine ⟨e, halo, hv, ?_⟩
    show (alookup mp k).getD 0 = e.value
    rw [hm k, if_pos hk, pidSpec_of_valid _ _ _ _ _ e halo hv]
    rfl

/-- Claim C4, witness: the spec scenario — `getMany [1, 2, 1, 3, 2]` on a
fresh cache invokes the echo loader once with exactly `[1, 2, 3]`, yields a
result of length 5 whose repeated keys repeat their promise, and fulfills the
three reserved promises. -/
theorem claimC4_witness :
    ∃ agg' w' assign,
      (idAggregate 1000).getMany 0 [1, 2, 1, 3, 2] emptyAggWorld
        = (agg', w', .ok ([1, 2, 1, 3, 2].map assign))
      ∧ w'.batchLog = emptyAggWorld.batchLog ++
          [missingKeys (((idAggregate 1000).kv).deleteExpiredIfNeed 0) 0 [1, 2, 1, 3, 2]]
      ∧ w'.storeKs = emptyAggWorld.storeKs
      ∧ (∀ p, p < emptyAggWorld.storeV.length →
          w'.storeV.get? p = emptyAggWorld.storeV.get? p)
      ∧ (∀ k, k ∈ missingKeys (((idAggregate 1000).kv).deleteExpiredIfNeed 0) 0
            [1, 2, 1, 3, 2] →
          ∃ v, [1, 2, 3].find? (fun v => decide ((idAggregate 1000).getKey v = k)) = some v
            ∧ w'.storeV.get? (assign k) = some ⟨.fulfilled v, true⟩)
      ∧ (∀ k, k ∈ [1, 2, 1, 3, 2] →
          k ∉ missingKeys (((idAggregate 1000).kv).deleteExpiredIfNeed 0) 0 [1, 2, 1, 3, 2] →
          ∃ e, alookup (((idAggregate 1000).kv).deleteExpiredIfNeed 0).kv k = some e
            ∧ e.isValid 0 = true ∧ assign k = e.value) :=
  claimC4_getMany_dedup (idAggregate 1000) 0 [1, 2, 1, 3, 2] emptyAggWorld [1, 2, 3]
    (by decide) (by decide) rfl rfl

/-- Claim C5, confirmed.  Batch-failure broadcast: whenever the batch loader
invoked by `getMany` fails with error `e`, the call re-raises that error
(wrapped as the upstream error in the model's error type), and every
ManualFuture reserved for the batch's missing keys is rejected with that same
error while remaining stored in the item cache as a normal entry expiring at
`now + ttl` — the standard TTL-bounded "cached rejection". -/
theorem claimC5_failure_broadcast {K CMK V E : Type} [DecidableEq K]
    (agg : MemAggregateCache K CMK V E) (now : Int) (keys : List K)
    (w : AggWorld K V E) (e : E)
    (httl : 0 < agg.kv.ttl)
    (hmiss : missingKeys (agg.kv.deleteExpiredIfNeed now) now keys ≠ [])
    (hload : agg.load (missingKeys (agg.kv.deleteExpiredIfNeed now) now keys) = .error e) :
    ∃ agg' w',
      agg.getMany now keys w = (agg', w', .error (.upstream e))
      ∧ w'.batchLog = w.batchLog ++ [missingKeys (agg.kv.deleteExpiredIfNeed now) now keys]
      ∧ (∀ k, k ∈ missingKeys (agg.kv.deleteExpiredIfNeed now) now keys →
          ∃ pid, alookup agg'.kv.kv k = some ⟨now + agg.kv.ttl, pid⟩
            ∧ w'.storeV.get? pid = some ⟨.rejected (.upstream e), true⟩) := by
  obtain ⟨kv', mp, heq, _hm, hkv, _httl', _hexp'⟩ :=
    getMany_err agg now keys w e httl hmiss hload
  refine ⟨_, _, heq, rfl, ?_⟩
  intro k hk
  refine ⟨w.storeV.length + idxOfK (missingKeys (agg.kv.deleteExpiredIfNeed now) now keys) k,
    ?_, ?_⟩
  · show alookup kv'.kv k = _
    rw [hkv k, if_pos hk, MemCache.deleteExpiredIfNeed_ttl]
  · show ((w.storeV ++ List.replicate
        (missingKeys (agg.kv.deleteExpiredIfNeed now) now keys).length
        (⟨.rejected (.upstream e), true⟩ : Prom V (AggError K E))).get?
      (w.storeV.length + idxOfK (missingKeys (agg.kv.deleteExpiredIfNeed now) now keys) k))
      = some ⟨.rejected (.upstream e), true⟩
    rw [listGetAppendPlus, listGetReplicate]
    exact idxOfK_lt _ k hk

/-- Claim C5, witness: a fresh cache whose batch loader always fails with
error 7; `getMany [1, 2]` re-raises it and both reserved futures are rejected
with it. -/
theorem claimC5_witness :
    ∃ agg' w',
      failingAggregate.getMany 0 [1, 2] emptyAggWorld = (agg', w', .error (.upstream 7))
      ∧ w'.batchLog = emptyAggWorld.batchLog ++
          [missingKeys ((failingAggregate.kv).deleteExpiredIfNeed 0) 0 [1, 2]]
      ∧ (∀ k, k ∈ missingKeys ((failingAggregate.kv).deleteExpiredIfNeed 0) 0 [1, 2] →
          ∃ pid, alookup agg'.kv.kv k = some ⟨0 + failingAggregate.kv.ttl, pid⟩
            ∧ w'.storeV.get? pid = some ⟨.rejected (.upstream 7), true⟩) :=
  claimC5_failure_broadcast failingAggregate 0 [1, 2] emptyAggWorld 7
    (by decide) (by decide) rfl

/-- Claim C6, corrected: two counterexamples to the claimed wrong-loaded-key
guard.  First, the guard is keyed to all requested keys, not the missing
keys: with key 1 cached and only `[2]` missing, a loader that returns an
extra record for key 1 does not fail the call — `getMany` succeeds.  Second,
when the guard does fire (key 999 never requested), the future reserved for
key 1 was already resolved before the offending record was reached, and
rejecting a settled future is a no-op, so it stays fulfilled rather than
being rejected with the error. -/
theorem claimC6_counterexample :
    (extraRecordAggregate.getKey 1 = 1
      ∧ extraRecordLoad [2] = .ok [1, 2]
      ∧ missingKeys ((c6FirstRun.1).kv.deleteExpiredIfNeed 0) 0 [1, 2] = [2]
      ∧ c6SecondRun.2.2 = .ok [0, 1]
      ∧ c6SecondRun.2.1.batchLog = [[1], [2]])
    ∧ (offenderAggregate.getKey 999 = 999
      ∧ missingKeys ((offenderAggregate.kv).deleteExpiredIfNeed 0) 0 [1, 2] = [1, 2]
      ∧ c6OffRun.2.2 = .error (.wrongLoadedKey 999)
      ∧ c6OffRun.2.1.storeV.get? 0 = some ⟨.fulfilled 1, true⟩
      ∧ alookup c6OffRun.1.kv.kv 1 = some ⟨1000, 0⟩) := by
  decide

/-- Claim C6, amended and proved.  The wrong-loaded-key guard is keyed to the
full requested key list (the local `map` holds every requested key): when the
batch loader returns, after a correctly-keyed prefix, a value whose derived
key is not among the requested keys, the whole call fails with a "wrong
loaded key" error identifying that key; the reserved futures that the resolve
loop had already resolved stay fulfilled, every remaining reserved future is
rejected with the error, and consequently no reserved future is left
pending — each missing key's cache entry points at a settled promise. -/
theorem claimC6_amended {K CMK V E : Type} [DecidableEq K]
    (agg : MemAggregateCache K CMK V E) (now : Int) (keys : List K)
    (w : AggWorld K V E) (gvs : List V) (off : V) (rest : List V)
    (httl : 0 < agg.kv.ttl)
    (hmiss : missingKeys (agg.kv.deleteExpiredIfNeed now) now keys ≠ [])
    (hload : agg.load (missingKeys (agg.kv.deleteExpiredIfNeed now) now keys)
      = .ok (gvs ++ off :: rest))
    (hpre : gvs.map agg.getKey =
      (missingKeys (agg.kv.deleteExpiredIfNeed now) now keys).take gvs.length)
    (hoff : agg.getKey off ∉ keys) :
    ∃ agg' w',
      agg.getMany now keys w = (agg', w', .error (.wrongLoadedKey (agg.getKey off)))
      ∧ w'.batchLog = w.batchLog ++ [missingKeys (agg.kv.deleteExpiredIfNeed now) now keys]
      ∧ (∀ k, k ∈ missingKeys (agg.kv.deleteExpiredIfNeed now) now keys →
          alookup agg'.kv.kv k = some ⟨now + agg.kv.ttl,
            w.storeV.length +
              idxOfK (missingKeys (agg.kv.deleteExpiredIfNeed now) now keys) k⟩)
      ∧ (∀ i, i < (missingKeys (agg.kv.deleteExpiredIfNeed now) now keys).length →
          w'.storeV.get? (w.storeV.length + i) =
            some (if h : i < gvs.length
                  then (⟨.fulfilled (gvs.get ⟨i, h⟩), true⟩ : Prom V (AggError K E))
                  else ⟨.rejected (.wrongLoadedKey (agg.getKey off)), true⟩))
      ∧ (∀ i, i < (missingKeys (agg.kv.deleteExpiredIfNeed now) now keys).length →
          ∀ p, w'.storeV.get? (w.storeV.length + i) = some p →
            p.settlement.isPending = false) := by
  obtain ⟨kv', mp, heq, _hm, hkv, htle, _httl', _hexp'⟩ :=
    getMany_offender agg now keys w gvs off rest httl hmiss hload hpre hoff
  have hsettle : ∀ i, i < (missingKeys (agg.kv.deleteExpiredIfNeed now) now keys).length →
      ((w.storeV ++ gvs.map (fun v => (⟨.fulfilled v, true⟩ : Prom V (AggError K E))))
          ++ List.replicate
            ((missingKeys (agg.kv.deleteExpiredIfNeed now) now keys).length - gvs.length)
            (⟨.rejected (.wrongLoadedKey (agg.getKey off)), true⟩ :
              Prom V (AggError K E))).get?
        (w.storeV.length + i) =
        some (if h : i < gvs.length
              then (⟨.fulfilled (gvs.get ⟨i, h⟩), true⟩ : Prom V (AggError K E))
              else ⟨.rejected (.wrongLoadedKey (agg.getKey off)), true⟩) := by
    intro i hi
    by_cases h2 : i < gvs.length
    · rw [dif_pos h2]
      refine listGetAppendOfSome _ _ _ _ ?_
      rw [listGetAppendPlus, listGetMap, List.get?_eq_get h2]
      rfl
    · rw [dif_neg h2]
      have hlen : (w.storeV ++ gvs.map
          (fun v => (⟨.fulfilled v, true⟩ : Prom V (AggError K E)))).length
          = w.storeV.length + gvs.length := by
        simp [List.length_append, List.length_map]
      have harith : w.storeV.length + i =
          (w.storeV ++ gvs.map
            (fun v => (⟨.fulfilled v, true⟩ : Prom V (AggError K E)))).length +
            (i - gvs.length) := by
        rw [hlen]
        omega
      rw [harith, listGetAppendPlus]
      exact listGetReplicate _ _ _ (by omega)
  refine ⟨_, _, heq, rfl, ?_, hsettle, ?_⟩
  · intro k hk
    show alookup kv'.kv k = _
    rw [hkv k, if_pos hk, MemCache.deleteExpiredIfNeed_ttl]
  · intro i hi p hp
    rw [hsettle i hi] at hp
    by_cases h2 : i < gvs.length
    · rw [dif_pos h2] at hp
      cases hp
      rfl
    · rw [dif_neg h2] at hp
      cases hp
      rfl

/-- Claim C6, amended, witness: a fresh cache whose loader, asked for the
missing keys `[1, 2]`, returns only a record for the unrequested key 999;
the call fails naming key 999 and both reserved futures are rejected. -/
theorem claimC6_amended_witness :
    ∃ agg' w',
      wrongKeyAggregate.getMany 0 [1, 2] emptyAggWorld
        = (agg', w', .error (.wrongLoadedKey (wrongKeyAggregate.getKey 999)))
      ∧ w'.batchLog = emptyAggWorld.batchLog ++
          [missingKeys ((wrongKeyAggregate.kv).deleteExpiredIfNeed 0) 0 [1, 2]]
      ∧ (∀ k, k ∈ missingKeys ((wrongKeyAggregate.kv).deleteExpiredIfNeed 0) 0 [1, 2] →
          alookup agg'.kv.kv k = some ⟨0 + wrongKeyAggregate.kv.ttl,
            emptyAggWorld.storeV.length +
              idxOfK (missingKeys ((wrongKeyAggregate.kv).deleteExpiredIfNeed 0) 0 [1, 2]) k⟩)
      ∧ (∀ i, i < (missingKeys ((wrongKeyAggregate.kv).deleteExpiredIfNeed 0) 0 [1, 2]).length →
          emptyAggWorld.storeV.get? (emptyAggWorld.storeV.length + i) = none ∨
          w'.storeV.get? (emptyAggWorld.storeV.length + i) =
            some (if h : i < ([] : List Nat).length
                  then (⟨.fulfilled (([] : List Nat).get ⟨i, h⟩), true⟩ :
                    Prom Nat (AggError Nat Nat))
                  else ⟨.rejected (.wrongLoadedKey (wrongKeyAggregate.getKey 999)), true⟩))
      ∧ (∀ i, i < (missingKeys ((wrongKeyAggregate.kv).deleteExpiredIfNeed 0) 0 [1, 2]).length →
          ∀ p, w'.storeV.get? (emptyAggWorld.storeV.length + i) = some p →
            p.settlement.isPending = false) := by
  obtain ⟨agg', w', h1, h2, h3, h4, h5⟩ :=
    claimC6_amended wrongKeyAggregate 0 [1, 2] emptyAggWorld [] 999 []
      (by decide) (by decide) (by decide) rfl (by decide)
  exact ⟨agg', w', h1, h2, h3, fun i hi => .inr (h4 i hi), h5⟩

/-- Sweeping preserves an empty key-entry map. -/
theorem MemCache.deleteExpiredIfNeed_kv_nil {K α W : Type} (c : MemCache K α W)
    (h : c.kv = []) (now : Int) : (c.deleteExpiredIfNeed now).kv = [] := by
  unfold MemCache.deleteExpiredIfNeed
  split
  · exact h
  · show (c.deleteExpired now).kv = []
    unfold MemCache.deleteExpired
    rw [h]
    rfl

/-- When the watermark has been reached, the sweep advances it to
`now + ttl`. -/
theorem MemCache.deleteExpiredIfNeed_exp_at {K α W : Type} (c : MemCache K α W)
    (now : Int) (h : ¬ c.expiredDeleteAt > now) :
    (c.deleteExpiredIfNeed now).expiredDeleteAt = now + c.ttl := by
  unfold MemCache.deleteExpiredIfNeed
  rw [if_neg h]

/-- A `MemAggregateCache.get` that hits a valid entry (with the sweep a no-op
and a default loader present) returns the stored promise id and changes
nothing: the cache and the world come back untouched, so no loader runs. -/
theorem MemAggregateCache.get_cached {K CMK V E : Type} [DecidableEq K]
    (agg : MemAggregateCache K CMK V E) (t : Int) (key : K) (w : AggWorld K V E)
    (e : MemCacheEntry Nat)
    (hskip : agg.kv.deleteExpiredIfNeed t = agg.kv)
    (he : alookup agg.kv.kv key = some e)
    (hv : e.isValid t = true)
    (hld : (agg.kv.load).isSome = true) :
    agg.get t key w = (agg, w, .ok e.value) := by
  have h := MemCache.get_of_valid agg.kv t key none (w, []) e
    (by rw [hskip]; exact he) hv hld
  unfold MemAggregateCache.get
  rw [h, hskip]

/-- `getManyByComplexKey` delegation: when the complex-key lookup succeeds
with a fulfilled key-list promise, the call is exactly `getMany` on those
keys (with the complex-key cache updated), its result wrapped in `some`. -/
theorem getManyByComplexKey_delegate {K CMK V E : Type} [DecidableEq K]
    [DecidableEq CMK] (agg : MemAggregateCache K CMK V E) (now : Int) (cmk : CMK)
    (ks : List K) (w : AggWorld K V E) (cm' : MemCache CMK Nat (AggWorld K V E))
    (pid : Nat) (w1 : AggWorld K V E) (a2 : MemAggregateCache K CMK V E)
    (w2 : AggWorld K V E) (res : Except (AggError K E) (List Nat))
    (hget : agg.cmkks.get now cmk (some (keysLoader (Except.ok ks))) w
      = .ok (cm', pid, w1))
    (hks : w1.storeKs.get? pid = some ⟨.fulfilled ks, false⟩)
    (hgm : ({ agg with cmkks := cm' } : MemAggregateCache K CMK V E).getMany now ks w1
      = (a2, w2, res)) :
    agg.getManyByComplexKey now cmk (.ok ks) w = (a2, w2, some res) := by
  unfold MemAggregateCache.getManyByComplexKey
  rw [hget]
  dsimp only
  rw [hks]
  dsimp only
  rw [hgm]

/-- Claim C7, confirmed.  Round-trip on a fresh aggregate cache: a successful
`getManyByComplexKey(CK, loader)` returns one promise per input key, invokes
the batch loader exactly once (one new `batchLog` entry), records the key
list under the complex key in the complex-key cache — reachable there as a
fulfilled key-list promise — and thereafter, at any time `t` before the TTL
expires, `get(k)` for each item-key `k` returns the very same promise id that
the bulk call returned for `k`, with the cache and the world completely
unchanged: in particular the batch loader is not invoked again. -/
theorem claimC7_round_trip {K CMK V E : Type} [DecidableEq K] [DecidableEq CMK]
    (ttl : Int) (getKey : V → K) (load : List K → Except E (List V)) (now : Int)
    (cmk : CMK) (ks : List K) (vs : List V) (w : AggWorld K V E)
    (httl : 0 < ttl) (hks : ks ≠ [])
    (hload : load (missingKeys ((MemAggregateCache.create ttl getKey load now :
        MemAggregateCache K CMK V E).kv.deleteExpiredIfNeed now) now ks) = .ok vs)
    (hconf : vs.map getKey = missingKeys ((MemAggregateCache.create ttl getKey load now :
        MemAggregateCache K CMK V E).kv.deleteExpiredIfNeed now) now ks) :
    ∃ agg' w' assign,
      (MemAggregateCache.create ttl getKey load now :
          MemAggregateCache K CMK V E).getManyByComplexKey now cmk (.ok ks) w
        = (agg', w', some (.ok (ks.map assign)))
      ∧ w'.batchLog = w.batchLog ++
          [missingKeys ((MemAggregateCache.create ttl getKey load now :
            MemAggregateCache K CMK V E).kv.deleteExpiredIfNeed now) now ks]
      ∧ alookup agg'.cmkks.kv cmk = some ⟨now + ttl, w.storeKs.length⟩
      ∧ w'.storeKs.get? w.storeKs.length = some ⟨.fulfilled ks, false⟩
      ∧ (∀ k, k ∈ ks → ∀ t : Int, now ≤ t → t < now + ttl →
          agg'.get t k w' = (agg', w', .ok (assign k))) := by
  have hmem : ∀ k, k ∈ ks → k ∈ missingKeys
      ((MemAggregateCache.create ttl getKey load now :
        MemAggregateCache K CMK V E).kv.deleteExpiredIfNeed now) now ks := by
    intro k hk
    exact (mem_missingKeys_iff _ now k ks).mpr
      ⟨hk, hasValidEntry_empty _ rfl now k⟩
  have hmiss : missingKeys ((MemAggregateCache.create ttl getKey load now :
      MemAggregateCache K CMK V E).kv.deleteExpiredIfNeed now) now ks ≠ [] := by
    obtain ⟨k0, hk0⟩ := List.exists_mem_of_ne_nil ks hks
    exact List.ne_nil_of_mem (hmem k0 hk0)
  have hnilC : (((MemAggregateCache.create ttl getKey load now :
      MemAggregateCache K CMK V E)).kv.deleteExpiredIfNeed now).kv = [] :=
    MemCache.deleteExpiredIfNeed_kv_nil _ rfl now
  have hcget : (MemAggregateCache.create ttl getKey load now :
      MemAggregateCache K CMK V E).cmkks.get now cmk
        (some (keysLoader (Except.ok ks))) w
      = .ok ({ (MemAggregateCache.create ttl getKey load now :
            MemAggregateCache K CMK V E).cmkks.deleteExpiredIfNeed now with
            kv := aset ((MemAggregateCache.create ttl getKey load now :
                MemAggregateCache K CMK V E).cmkks.deleteExpiredIfNeed now).kv cmk
              ⟨now + ttl, w.storeKs.length⟩ },
        w.storeKs.length,
        { w with storeKs := w.storeKs ++ [⟨Settlement.fulfilled ks, false⟩] }) :=
    MemCache.get_install _ now cmk _ w (hasValidEntry_empty _ rfl now cmk)
  obtain ⟨kv', mp, hgmeq, hm, hkv, httl2, hexp2, hld2⟩ :=
    getMany_ok
      ({ (MemAggregateCache.create ttl getKey load now :
          MemAggregateCache K CMK V E) with
          cmkks := { (MemAggregateCache.create ttl getKey load now :
              MemAggregateCache K CMK V E).cmkks.deleteExpiredIfNeed now with
              kv := aset ((MemAggregateCache.create ttl getKey load now :
                  MemAggregateCache K CMK V E).cmkks.deleteExpiredIfNeed now).kv cmk
                ⟨now + ttl, w.storeKs.length⟩ } })
      now ks
      ({ w with storeKs := w.storeKs ++ [⟨Settlement.fulfilled ks, false⟩] })
      vs httl hmiss hload hconf
  dsimp only at hm hkv httl2 hexp2 hld2
  have hfinal := getManyByComplexKey_delegate
    (MemAggregateCache.create ttl getKey load now : MemAggregateCache K CMK V E)
    now cmk ks w _ _ _ _ _ _
    hcget (listGetAppendLength w.storeKs _ []) hgmeq
  refine ⟨_, _, fun k => (alookup mp k).getD 0, hfinal, rfl,
    alookup_aset_self _ cmk _, listGetAppendLength w.storeKs _ [], ?_⟩
  intro k hk t ht1 ht2
  have hkm := hmem k hk
  have hassign : (alookup mp k).getD 0 =
      w.storeV.length + idxOfK (missingKeys
        ((MemAggregateCache.create ttl getKey load now :
          MemAggregateCache K CMK V E).kv.deleteExpiredIfNeed now) now ks) k := by
    rw [hm k, if_pos hk]
    simp only [Option.getD_some]
    unfold pidSpec
    rw [hnilC]
    rfl
  have halo : alookup kv'.kv k = some ⟨now + ttl,
      w.storeV.length + idxOfK (missingKeys
        ((MemAggregateCache.create ttl getKey load now :
          MemAggregateCache K CMK V E).kv.deleteExpiredIfNeed now) now ks) k⟩ := by
    rw [hkv k, if_pos hkm, MemCache.deleteExpiredIfNeed_ttl]
    rfl
  have hbound : t < kv'.expiredDeleteAt := by
    rw [hexp2, MemCache.deleteExpiredIfNeed_exp_at]
    · exact ht2
    · exact lt_irrefl now
  have hskipt : kv'.deleteExpiredIfNeed t = kv' :=
    MemCache.deleteExpiredIfNeed_skip kv' t hbound
  have hv : (⟨now + ttl, w.storeV.length + idxOfK (missingKeys
      ((MemAggregateCache.create ttl getKey load now :
        MemAggregateCache K CMK V E).kv.deleteExpiredIfNeed now) now ks) k⟩ :
      MemCacheEntry Nat).isValid t = true := decide_eq_true ht2
  have hldk : kv'.load.isSome = true := by
    rw [hld2, MemCache.deleteExpiredIfNeed_load]
    rfl
  change _ = (_, _, Except.ok ((alookup mp k).getD 0))
  rw [hassign]
  exact MemAggregateCache.get_cached _ t k _
    ⟨now + ttl, w.storeV.length + idxOfK (missingKeys
      ((MemAggregateCache.create ttl getKey load now :
        MemAggregateCache K CMK V E).kv.deleteExpiredIfNeed now) now ks) k⟩
    hskipt halo hv hldk

/-- Claim C7, witness: a fresh cache (ttl 1000, identity key extractor,
echoing batch loader); `getManyByComplexKey` under complex key 5 with key
list `[1, 2]` succeeds, the key list is reachable under complex key 5, and
each key is retrievable via `get` at any time before expiry with nothing
changing. -/
theorem claimC7_witness :
    ∃ agg' w' assign,
      (MemAggregateCache.create 1000 (fun v => v) (fun ks => Except.ok ks) 0 :
          MemAggregateCache Nat Nat Nat Nat).getManyByComplexKey 0 5 (.ok [1, 2])
          emptyAggWorld
        = (agg', w', some (.ok ([1, 2].map assign)))
      ∧ w'.batchLog = emptyAggWorld.batchLog ++
          [missingKeys ((MemAggregateCache.create 1000 (fun v => v)
              (fun ks => Except.ok ks) 0 :
            MemAggregateCache Nat Nat Nat Nat).kv.deleteExpiredIfNeed 0) 0 [1, 2]]
      ∧ alookup agg'.cmkks.kv 5 = some ⟨0 + 1000, emptyAggWorld.storeKs.length⟩
      ∧ w'.storeKs.get? emptyAggWorld.storeKs.length = some ⟨.fulfilled [1, 2], false⟩
      ∧ (∀ k, k ∈ [1, 2] → ∀ t : Int, 0 ≤ t → t < 0 + 1000 →
          agg'.get t k w' = (agg', w', .ok (assign k))) :=
  claimC7_round_trip 1000 (fun v => v) (fun ks => Except.ok ks) 0 5 [1, 2] [1, 2]
    emptyAggWorld (by decide) (by decide) (by decide) (by decide)
